import Mathlib

set_option maxHeartbeats 1000000
set_option maxRecDepth 4000

/-!
Verification model of the sentiment-analysis core of the repository
(`src/youtube_sentiment/sentiment_analyzer.py`): the response-parsing
portion of `analyze_comment` (markdown-fence cleanup, `json.loads`,
first-`{`-to-last-`}` extraction, required-field filling, catch-all error
record) and the batch retry/backoff loop `analyze_comments_batch`, plus the
summary statistics of `analyze_video_comments`.

Python text is modelled as `List Char`.  Python `str.strip` is modelled on
the ASCII whitespace characters (space, tab, newline, carriage return,
vertical tab, form feed); the JSON module's inter-token whitespace is the
strict four-character set used by `json.loads`.  JSON numbers are kept as
their source lexemes (the claims under study never compute with them).
Exception messages are modelled as fixed strings approximating CPython's
messages with quote characters omitted; only their identity/non-emptiness
matters to the claims.  In `\uXXXX` string escapes, lone surrogate code
units (which CPython preserves inside `str`) are mapped through
`Char.ofNat`; no claim depends on them.
-/

/-- The four whitespace characters `json.loads` skips between tokens. -/
def isJsonWs (c : Char) : Bool :=
  c = ' ' || c = '\t' || c = '\n' || c = '\r'

/-- ASCII whitespace stripped by Python `str.strip()`. -/
def isPyWs (c : Char) : Bool :=
  isJsonWs c || c = Char.ofNat 11 || c = Char.ofNat 12

/-- Python `str.strip()`: remove leading and trailing whitespace. -/
def pyStrip (l : List Char) : List Char :=
  ((l.dropWhile isPyWs).reverse.dropWhile isPyWs).reverse

/-- Python `str.startswith(pat)` on character lists. -/
def listStartsWith : List Char → List Char → Bool
  | [], _ => true
  | _ :: _, [] => false
  | p :: ps, c :: cs => p = c && listStartsWith ps cs

/-- Python `str.endswith(pat)` on character lists. -/
def listEndsWith (pat s : List Char) : Bool :=
  listStartsWith pat.reverse s.reverse

/-- Python `pat in s` substring test on character lists. -/
def containsSub (pat : List Char) : List Char → Bool
  | [] => listStartsWith pat []
  | c :: cs => listStartsWith pat (c :: cs) || containsSub pat cs

/-- ASCII `str.lower()` on one character (error messages are ASCII). -/
def toLowerAscii (c : Char) : Char :=
  if 'A' ≤ c && c ≤ 'Z' then Char.ofNat (c.toNat + 32) else c

/-- Python `str.find(c)`: index of first occurrence. -/
def firstIdx (c : Char) : List Char → Option Nat
  | [] => none
  | x :: xs => if x = c then some 0 else (firstIdx c xs).map (· + 1)

/-- Python `str.rfind(c)`: index of last occurrence. -/
def lastIdx (c : Char) (l : List Char) : Option Nat :=
  (firstIdx c l.reverse).map (fun i => l.length - 1 - i)

/-- A Python value as produced by `json.loads`: object keys are decoded
strings, numbers keep their source lexeme. -/
inductive Json where
  | null : Json
  | bool (b : Bool) : Json
  | num (lex : List Char) : Json
  | str (s : List Char) : Json
  | arr (elems : List Json) : Json
  | obj (kvs : List (List Char × Json)) : Json
deriving Repr

instance : Inhabited Json := ⟨Json.null⟩

/-- Python `x == k` where `k` is a `str`: true only for an equal string
(numbers, booleans, containers never equal a string). -/
def jsonEqStr (x : Json) (k : List Char) : Bool :=
  match x with
  | .str s => decide (s = k)
  | _ => false

/-- Python dict key-membership (`k in d`), insertion order preserved. -/
def hasKey (kvs : List (List Char × Json)) (k : List Char) : Bool :=
  kvs.any (fun p => decide (p.1 = k))

/-- Python dict assignment `d[k] = v`: update in place if the key exists
(keeping its position), otherwise append. -/
def insertKV : List (List Char × Json) → List Char → Json → List (List Char × Json)
  | [], k, v => [(k, v)]
  | (k0, v0) :: rest, k, v =>
    if k0 = k then (k0, v) :: rest else (k0, v0) :: insertKV rest k v

/-- Python dict lookup `d[k]` (as an `Option`). -/
def lookupKV : List (List Char × Json) → List Char → Option Json
  | [], _ => none
  | (k0, v0) :: rest, k => if k0 = k then some v0 else lookupKV rest k

/-- A comment record: a Python dict from string keys to values. -/
abbrev Comment := List (List Char × Json)

/-- Decimal digit test, as in the JSON number grammar. -/
def isDigitCh (c : Char) : Bool := '0' ≤ c && c ≤ '9'

/-- Nonzero leading digit of a JSON int part. -/
def isDigit19 (c : Char) : Bool := '1' ≤ c && c ≤ '9'

/-- Hex digit value for `\uXXXX` escapes. -/
def hexVal (c : Char) : Option Nat :=
  if isDigitCh c then some (c.toNat - 48)
  else if 'a' ≤ c && c ≤ 'f' then some (c.toNat - 87)
  else if 'A' ≤ c && c ≤ 'F' then some (c.toNat - 55)
  else none

/-- Read exactly four hex digits. -/
def fourHex : List Char → Option (Nat × List Char)
  | a :: b :: c :: d :: r =>
    match hexVal a, hexVal b, hexVal c, hexVal d with
    | some x, some y, some z, some w => some (((x * 16 + y) * 16 + z) * 16 + w, r)
    | _, _, _, _ => none
  | _ => none

/-- Single-character JSON string escapes. -/
def escChar (e : Char) : Option Char :=
  if e = '"' then some '"'
  else if e = '\\' then some '\\'
  else if e = '/' then some '/'
  else if e = 'b' then some (Char.ofNat 8)
  else if e = 'f' then some (Char.ofNat 12)
  else if e = 'n' then some '\n'
  else if e = 'r' then some '\r'
  else if e = 't' then some '\t'
  else none

/-- Longest digit run, as matched greedily by the number regex. -/
def spanDigits (l : List Char) : List Char × List Char :=
  (l.takeWhile isDigitCh, l.dropWhile isDigitCh)

/-- Integer part of a JSON number: `0` or a nonzero digit followed by digits. -/
def numIntPart : List Char → Option (List Char × List Char)
  | '0' :: r => some (['0'], r)
  | c :: r => if isDigit19 c then
      let (ds, r2) := spanDigits r
      some (c :: ds, r2)
    else none
  | [] => none

/-- Optional fraction group `.[0-9]+` (matched only when complete). -/
def numFrac (r : List Char) : List Char × List Char :=
  match r with
  | '.' :: r1 =>
    let (ds, r2) := spanDigits r1
    if ds = [] then ([], r) else ('.' :: ds, r2)
  | _ => ([], r)

/-- Optional exponent group `[eE][+-]?[0-9]+` (matched only when complete). -/
def numExp (r : List Char) : List Char × List Char :=
  match r with
  | e :: r1 =>
    if e = 'e' || e = 'E' then
      match r1 with
      | '+' :: q =>
        let (ds, r2) := spanDigits q
        if ds = [] then ([], e :: r1) else (e :: '+' :: ds, r2)
      | '-' :: q =>
        let (ds, r2) := spanDigits q
        if ds = [] then ([], e :: r1) else (e :: '-' :: ds, r2)
      | q =>
        let (ds, r2) := spanDigits q
        if ds = [] then ([], e :: r1) else (e :: ds, r2)
    else ([], e :: r1)
  | [] => ([], [])

/-- The `json` module's number regex: greedy match, returning the lexeme
and the unconsumed remainder (no match at all is `none`). -/
def parseNum (s : List Char) : Option (List Char × List Char) :=
  match s with
  | '-' :: r =>
    match numIntPart r with
    | some (ip, r2) =>
      let (fr, r3) := numFrac r2
      let (ex, r4) := numExp r3
      some ('-' :: (ip ++ fr ++ ex), r4)
    | none => none
  | _ =>
    match numIntPart s with
    | some (ip, r2) =>
      let (fr, r3) := numFrac r2
      let (ex, r4) := numExp r3
      some (ip ++ fr ++ ex, r4)
    | none => none

/-- Skip inter-token JSON whitespace. -/
def skipWs (l : List Char) : List Char := l.dropWhile isJsonWs

/-- JSON string body after the opening quote, per CPython `py_scanstring`
(strict mode): returns the decoded characters and the remainder after the
closing quote.  Structural on fuel. -/
def parseStr : Nat → List Char → Option (List Char × List Char)
  | 0, _ => none
  | Nat.succ f, s =>
    match s with
    | [] => none
    | '"' :: cs => some ([], cs)
    | '\\' :: 'u' :: cs =>
      match fourHex cs with
      | none => none
      | some (n, cs2) =>
        if 0xD800 ≤ n && n ≤ 0xDBFF then
          match cs2 with
          | '\\' :: 'u' :: cs3 =>
            match fourHex cs3 with
            | some (m, cs4) =>
              if 0xDC00 ≤ m && m ≤ 0xDFFF then
                match parseStr f cs4 with
                | some (out, r) =>
                  some (Char.ofNat (0x10000 + (n - 0xD800) * 0x400 + (m - 0xDC00)) :: out, r)
                | none => none
              else
                match parseStr f cs2 with
                | some (out, r) => some (Char.ofNat n :: out, r)
                | none => none
            | none =>
              match parseStr f cs2 with
              | some (out, r) => some (Char.ofNat n :: out, r)
              | none => none
          | _ =>
            match parseStr f cs2 with
            | some (out, r) => some (Char.ofNat n :: out, r)
            | none => none
        else
          match parseStr f cs2 with
          | some (out, r) => some (Char.ofNat n :: out, r)
          | none => none
    | '\\' :: e :: cs =>
      match escChar e with
      | some d =>
        match parseStr f cs with
        | some (out, r) => some (d :: out, r)
        | none => none
      | none => none
    | c :: cs =>
      if c.toNat < 32 then none
      else
        match parseStr f cs with
        | some (out, r) => some (c :: out, r)
        | none => none

mutual

/-- One JSON value starting at the head of the input (whitespace already
skipped), per the `json` module: objects, arrays, strings, `true`, `false`,
`null`, the non-standard constants `NaN`, `Infinity`, `-Infinity`, and
numbers.  Returns the value and the unconsumed remainder. -/
def parseVal : Nat → List Char → Option (Json × List Char)
  | 0, _ => none
  | Nat.succ f, s =>
    if listStartsWith ['\x7b'] s then
      match skipWs (s.drop 1) with
      | '\x7d' :: r => some (.obj [], r)
      | s1 => parseMembers f s1 []
    else if listStartsWith ['['] s then
      match skipWs (s.drop 1) with
      | ']' :: r => some (.arr [], r)
      | s1 => parseElems f s1 []
    else if listStartsWith ['"'] s then
      match parseStr f (s.drop 1) with
      | some (out, r) => some (.str out, r)
      | none => none
    else if listStartsWith "true".toList s then some (.bool true, s.drop 4)
    else if listStartsWith "false".toList s then some (.bool false, s.drop 5)
    else if listStartsWith "null".toList s then some (.null, s.drop 4)
    else if listStartsWith "NaN".toList s then
      some (.num ("NaN".toList), s.drop 3)
    else if listStartsWith "Infinity".toList s then
      some (.num ("Infinity".toList), s.drop 8)
    else if listStartsWith "-Infinity".toList s then
      some (.num ("-Infinity".toList), s.drop 9)
    else
      match parseNum s with
      | some (lex, r) => some (.num lex, r)
      | none => none

/-- One-or-more object members (at a key position, whitespace skipped);
duplicate keys follow Python dict semantics (last value wins, first
position kept).  The empty object is handled in `parseVal`. -/
def parseMembers : Nat → List Char → List (List Char × Json) →
    Option (Json × List Char)
  | 0, _, _ => none
  | Nat.succ f, s, acc =>
    match s with
    | '"' :: cs =>
      match parseStr f cs with
      | none => none
      | some (key, r1) =>
        match skipWs r1 with
        | ':' :: r2 =>
          match parseVal f (skipWs r2) with
          | none => none
          | some (v, r3) =>
            match skipWs r3 with
            | '\x7d' :: r4 => some (.obj (insertKV acc key v), r4)
            | ',' :: r4 => parseMembers f (skipWs r4) (insertKV acc key v)
            | _ => none
        | _ => none
    | _ => none

/-- One-or-more array elements; the empty array is handled in `parseVal`. -/
def parseElems : Nat → List Char → List Json → Option (Json × List Char)
  | 0, _, _ => none
  | Nat.succ f, s, acc =>
    match parseVal f s with
    | none => none
    | some (v, r1) =>
      match skipWs r1 with
      | ']' :: r2 => some (.arr (acc ++ [v]), r2)
      | ',' :: r2 => parseElems f (skipWs r2) (acc ++ [v])
      | _ => none

end

/-- Strip the JSON whitespace set from both ends. -/
def trimJson (l : List Char) : List Char :=
  ((l.dropWhile isJsonWs).reverse.dropWhile isJsonWs).reverse

/-- `json.loads`: one complete JSON document, with surrounding whitespace
allowed and nothing else. -/
def json_loads (l : List Char) : Option Json :=
  let t := trimJson l
  match parseVal (t.length + 1) t with
  | some (v, []) => some v
  | _ => none

/-- Key "sentiment". -/
def sentKey : List Char := "sentiment".toList

/-- Key "score". -/
def scoreKey : List Char := "score".toList

/-- Key "key_phrases". -/
def kpKey : List Char := "key_phrases".toList

/-- Key "topics". -/
def topicsKey : List Char := "topics".toList

/-- Key "emotional_tone". -/
def etKey : List Char := "emotional_tone".toList

/-- Key "error". -/
def errKey : List Char := "error".toList

/-- Key "sentiment_analysis". -/
def saKey : List Char := "sentiment_analysis".toList

/-- Label "unknown". -/
def unknownStr : List Char := "unknown".toList

/-- Label "error". -/
def errorStr : List Char := "error".toList

/-- The `required_fields` list checked by `analyze_comment`, in order. -/
def requiredFields : List (List Char) := [sentKey, scoreKey, kpKey, topicsKey, etKey]

/-- `_create_default_result`: the default record used when parsing fails. -/
def defaultResultKVs : List (List Char × Json) :=
  [(sentKey, Json.str unknownStr), (scoreKey, Json.num ("0.0".toList)),
   (kpKey, Json.arr []), (topicsKey, Json.arr []), (etKey, Json.arr [])]

/-- `_get_default_value`: per-field default (`defaults.get(field, None)`). -/
def getDefaultValue (f : List Char) : Json :=
  match lookupKV defaultResultKVs f with
  | some v => v
  | none => Json.null

/-- Python type name of a parsed number, for error-message purposes. -/
def numTypeName (lex : List Char) : List Char :=
  if lex.any (fun c => c = '.' || c = 'e' || c = 'E') || decide (lex = "NaN".toList)
      || decide (lex = "Infinity".toList) || decide (lex = "-Infinity".toList) then
    "float".toList
  else "int".toList

/-- Python type name of a `json.loads` value. -/
def typeNameOf : Json → List Char
  | .null => "NoneType".toList
  | .bool _ => "bool".toList
  | .num lex => numTypeName lex
  | .str _ => "str".toList
  | .arr _ => "list".toList
  | .obj _ => "dict".toList

/-- TypeError message for `k in v` on a non-container (quotes omitted). -/
def notIterableMsg (t : List Char) : List Char :=
  "argument of type ".toList ++ t ++ " is not iterable".toList

/-- Python `k in v` for a string key `k`: dict key membership, substring
test on a `str`, element equality on a `list`, `TypeError` otherwise. -/
def pyContains (v : Json) (k : List Char) : Except (List Char) Bool :=
  match v with
  | .obj kvs => .ok (hasKey kvs k)
  | .str s => .ok (containsSub k s)
  | .arr es => .ok (es.any (fun e => jsonEqStr e k))
  | other => .error (notIterableMsg (typeNameOf other))

/-- Python `v[k] = x` for a string key `k`: dict assignment, `TypeError`
on anything else (messages approximate CPython's, quotes omitted). -/
def pySetItem (v : Json) (k : List Char) (x : Json) : Except (List Char) Json :=
  match v with
  | .obj kvs => .ok (.obj (insertKV kvs k x))
  | .str _ => .error ("str object does not support item assignment".toList)
  | .arr _ => .error ("list indices must be integers or slices, not str".toList)
  | other => .error (typeNameOf other ++ " object does not support item assignment".toList)

/-- The required-field loop of `analyze_comment` over a list of fields:
`for field in fields: if field not in result: result[field] = default`.
A raised `TypeError` propagates as `.error`. -/
def fieldCheckGo : List (List Char) → Json → Except (List Char) Json
  | [], v => .ok v
  | f :: fs, v =>
    match pyContains v f with
    | .error e => .error e
    | .ok true => fieldCheckGo fs v
    | .ok false =>
      match pySetItem v f (getDefaultValue f) with
      | .error e => .error e
      | .ok v2 => fieldCheckGo fs v2

/-- The required-field loop of `analyze_comment` (lines 150-154). -/
def fieldCheck (v : Json) : Except (List Char) Json :=
  fieldCheckGo requiredFields v

/-- The error record returned by `analyze_comment`'s outer handler. -/
def pyErrorKVs (e : List Char) : List (List Char × Json) :=
  [(sentKey, Json.str errorStr), (scoreKey, Json.num ("0.0".toList)),
   (kpKey, Json.arr []), (topicsKey, Json.arr []), (etKey, Json.arr []),
   (errKey, Json.str e)]

/-- The fence "```json". -/
def fenceJson : List Char := "```json".toList

/-- The fence "```". -/
def fence : List Char := "```".toList

/-- Lines 116-126 of `analyze_comment`: strip, remove a leading
"```json" (7 chars) then a leading "```" (3 chars) then a trailing
"```" (3 chars) when present, strip again.  The checks are sequential
`if`s, exactly as in the source. -/
def cleanFences (raw : List Char) : List Char :=
  let t0 := pyStrip raw
  let t1 := if listStartsWith fenceJson t0 then t0.drop 7 else t0
  let t2 := if listStartsWith fence t1 then t1.drop 3 else t1
  let t3 := if listEndsWith fence t2 then t2.take (t2.length - 3) else t2
  pyStrip t3

/-- Lines 134-138: `start_idx = text.find(chr(123))`, `end_idx =
text.rfind(chr(125)) + 1`, and the slice `text[start_idx:end_idx]` when
`start_idx >= 0 and end_idx > start_idx`. -/
def extractBraces (t : List Char) : Option (List Char) :=
  match firstIdx '\x7b' t with
  | none => none
  | some i =>
    match lastIdx '\x7d' t with
    | none => none
    | some j => if i < j + 1 then some ((t.drop i).take (j + 1 - i)) else none

/-- Lines 129-148: parse the whole cleaned text, else parse the
first-"brace"-to-last-"brace" slice, else the default record. -/
def parsedResult (u : List Char) : Json :=
  match json_loads u with
  | some v => v
  | none =>
    match extractBraces u with
    | some sub =>
      match json_loads sub with
      | some v => v
      | none => Json.obj defaultResultKVs
    | none => Json.obj defaultResultKVs

/-- Parsing plus the required-field loop, with the outer `except` of
`analyze_comment` converting a raised `TypeError` into the error record. -/
def parseStage (u : List Char) : Json :=
  match fieldCheck (parsedResult u) with
  | .ok r => r
  | .error e => Json.obj (pyErrorKVs e)

/-- The response-interpreting portion of `analyze_comment` (lines
115-166), applied to the extracted response text. -/
def analyze_comment_parse (raw : List Char) : Json :=
  parseStage (cleanFences raw)

/-- `analyze_comment` given the outcome of the external model call: a
raised exception is caught by the outer handler and becomes the error
record; a returned response text goes through the interpreting portion. -/
def analyze_comment (callResult : Except (List Char) (List Char)) : Json :=
  match callResult with
  | .error e => Json.obj (pyErrorKVs e)
  | .ok txt => analyze_comment_parse txt

/-- Line 241: `"quota" in str(e).lower() or "429" in str(e)`. -/
def isQuotaMsg (e : List Char) : Bool :=
  containsSub ("quota".toList) (e.map toLowerAscii) || containsSub ("429".toList) e

/-- Fallback message of line 256 when the loop ends without a result. -/
def maxRetriesMsg : List Char := "Max retries exceeded".toList

/-- The default record annotated with an error message (lines 248-249 and
255-256): `_create_default_result()` then `sentiment_result["error"] = msg`. -/
def defaultWithError (e : List Char) : Json :=
  Json.obj (insertKV defaultResultKVs errKey (Json.str e))

/-- The `while retry_count < max_retries` loop of `analyze_comments_batch`
(lines 221-251) for one comment.  `classify` is the classification attempt
performed inside the `try` block (`self.analyze_comment(comment["text"])`),
indexed by a global call counter; `.error` is a raised exception, whose
message drives the quota check.  Returns the final `retry_count`, the
updated call counter, and `sentiment_result` (`none` for Python `None`).
`fuel` is an upper bound on the remaining iterations; the loop is entered
only while `retry_count < max_retries`, and every iteration that does not
leave the loop increments `retry_count`, so `fuel = max_retries` suffices. -/
def itemLoop (classify : Nat → Comment → Except (List Char) Json) (c : Comment)
    (maxR : Nat) : Nat → Nat → Nat → Nat × Nat × Option Json
  | fuel, rc, calls =>
    if rc < maxR then
      match fuel with
      | 0 => (rc, calls, none)
      | Nat.succ f =>
        match classify calls c with
        | .ok r => (rc, calls + 1, some r)
        | .error e =>
          if isQuotaMsg e then itemLoop classify c maxR f (rc + 1) (calls + 1)
          else if maxR ≤ rc + 1 then
            (rc + 1, calls + 1, some (defaultWithError e))
          else itemLoop classify c maxR f (rc + 1) (calls + 1)
    else (rc, calls, none)

/-- The per-comment body of `analyze_comments_batch` (lines 211-261): skip
comments already carrying `"sentiment_analysis"` without consuming a call;
otherwise run the retry loop, fall back to the default-with-error record
when it produced no result, and annotate a copy of the comment. -/
def processItem (classify : Nat → Comment → Except (List Char) Json)
    (maxR : Nat) (c : Comment) (calls : Nat) : Comment × Nat :=
  if hasKey c saKey then (c, calls)
  else
    let (_, calls2, resOpt) := itemLoop classify c maxR maxR 0 calls
    let res :=
      match resOpt with
      | some r => r
      | none => defaultWithError maxRetriesMsg
    (insertKV c saKey res, calls2)

/-- The inner `for comment in batch` loop, threading the call counter. -/
def processItems (classify : Nat → Comment → Except (List Char) Json)
    (maxR : Nat) : List Comment → Nat → List Comment × Nat
  | [], calls => ([], calls)
  | c :: cs, calls =>
    let (r, calls2) := processItem classify maxR c calls
    let (rs, calls3) := processItems classify maxR cs calls2
    (r :: rs, calls3)

/-- `comments[i:i+batch_size]` slicing of the outer loop, with a fuel
argument (`range(0, len, bs)` needs `bs >= 1`; `bs = 0` raises in Python
and is excluded by hypothesis in every theorem below). -/
def chunksOfAux (bs : Nat) : Nat → List Comment → List (List Comment)
  | _, [] => []
  | 0, _ => []
  | Nat.succ f, l => l.take bs :: chunksOfAux bs f (l.drop bs)

/-- The batches traversed by the outer loop of `analyze_comments_batch`. -/
def chunksOf (bs : Nat) (l : List Comment) : List (List Comment) :=
  chunksOfAux bs l.length l

/-- The outer `for i in range(0, len(comments), batch_size)` loop. -/
def processChunks (classify : Nat → Comment → Except (List Char) Json)
    (maxR : Nat) : List (List Comment) → Nat → List Comment × Nat
  | [], calls => ([], calls)
  | b :: rest, calls =>
    let (r1, c1) := processItems classify maxR b calls
    let (r2, c2) := processChunks classify maxR rest c1
    (r1 ++ r2, c2)

/-- `analyze_comments_batch` (lines 189-267), abstracted over the
classification attempt and returning the result list together with the
total number of classification calls made. -/
def analyze_comments_batch (classify : Nat → Comment → Except (List Char) Json)
    (comments : List Comment) (bs maxR : Nat) : List Comment × Nat :=
  processChunks classify maxR (chunksOf bs comments) 0

/-- Lines 224-229: `jitter = random.uniform(0.5, 1.5)`, `current_delay =
rate_limit_delay * jitter`, `backoff_delay = current_delay * (2 **
retry_count)`.  Floats are modelled as exact rationals. -/
def backoff_delay (base jitter : ℚ) (rc : Nat) : ℚ :=
  (base * jitter) * 2 ^ rc

/-- One step of the comprehension of lines 285-286: the comment's
sentiment label, when `"sentiment_analysis" in c and "sentiment" in
c["sentiment_analysis"]` holds; `.error` models a raised `TypeError`
(possible when the stored record is not a dict). -/
def commentLabel (c : Comment) : Except (List Char) (Option Json) :=
  match lookupKV c saKey with
  | none => .ok none
  | some sa =>
    match pyContains sa sentKey with
    | .error e => .error e
    | .ok false => .ok none
    | .ok true =>
      match sa with
      | .obj kvs =>
        match lookupKV kvs sentKey with
        | some v => .ok (some v)
        | none => .error ("KeyError sentiment".toList)
      | .str _ => .error ("string indices must be integers".toList)
      | .arr _ => .error ("list indices must be integers or slices, not str".toList)
      | other => .error (typeNameOf other ++ " object is not subscriptable".toList)

/-- The `sentiments` list comprehension of lines 285-286. -/
def sentimentsOf : List Comment → Except (List Char) (List Json)
  | [] => .ok []
  | c :: cs =>
    match commentLabel c with
    | .error e => .error e
    | .ok none => sentimentsOf cs
    | .ok (some v) =>
      match sentimentsOf cs with
      | .error e => .error e
      | .ok vs => .ok (v :: vs)

/-- `sentiments.count(lab)`: occurrences equal to the string `lab`. -/
def countLabel (sents : List Json) (lab : List Char) : Nat :=
  sents.countP (fun v => jsonEqStr v lab)

/-- Label "positive". -/
def posStr : List Char := "positive".toList

/-- Label "negative". -/
def negStr : List Char := "negative".toList

/-- Label "neutral". -/
def neuStr : List Char := "neutral".toList

/-- The `sentiment_counts` dict of lines 288-293, in insertion order. -/
def sentimentCounts (sents : List Json) (total : Nat) : List (List Char × Nat) :=
  [(posStr, countLabel sents posStr), (negStr, countLabel sents negStr),
   (neuStr, countLabel sents neuStr), (unknownStr, total - sents.length)]

/-- `max(d, key=d.get)` over the keys of a dict in insertion order: the
first key whose value no later key strictly exceeds. -/
def pyMaxKeyGo (k : List Char) (v : Nat) : List (List Char × Nat) → List Char
  | [] => k
  | (k2, v2) :: rest => if v < v2 then pyMaxKeyGo k2 v2 rest else pyMaxKeyGo k v rest

/-- `max(counts, key=counts.get)` (line 298). -/
def pyMaxKey : List (List Char × Nat) → Option (List Char)
  | [] => none
  | (k, v) :: rest => some (pyMaxKeyGo k v rest)

/-- The `sentiment_summary` computed by `analyze_video_comments` (lines
284-299) from the annotated comment list: the counts dict, the total
comment count, and the overall sentiment.  `.error` models a raised
exception (possible only for malformed records). -/
def analyze_video_summary (cs : List Comment) :
    Except (List Char) (List (List Char × Nat) × Nat × List Char) :=
  match sentimentsOf cs with
  | .error e => .error e
  | .ok sents =>
    let counts := sentimentCounts sents cs.length
    match pyMaxKey counts with
    | some k => .ok (counts, cs.length, k)
    | none => .error ("max arg is an empty sequence".toList)

/-- No first-"{"-before-last-"}" pair, i.e. the extraction condition of
lines 134-137 cannot hold: either brace is absent, or the last "}"
precedes the first "{". -/
def noBracePair (s : List Char) : Bool :=
  match firstIdx '\x7b' s, lastIdx '\x7d' s with
  | some i, some j => decide (j < i)
  | _, _ => true

/-- Whether a parsed value is a JSON object (a Python dict). -/
def isObjJ : Json → Bool
  | .obj _ => true
  | _ => false

/-- Spec-side count: comments whose sentiment record carries the given
label (used to compare the summary's buckets against the claim's words). -/
def specLabelCount (cs : List Comment) (lab : List Char) : Nat :=
  cs.countP (fun c =>
    match lookupKV c saKey with
    | some (.obj kvs) =>
      match lookupKV kvs sentKey with
      | some v => jsonEqStr v lab
      | none => false
    | _ => false)

/-- Spec-side count: comments whose sentiment record has a sentiment
label at all (the comprehension of lines 285-286 keeps exactly these). -/
def specHasLabelCount (cs : List Comment) : Nat :=
  cs.countP (fun c =>
    match lookupKV c saKey with
    | some (.obj kvs) => hasKey kvs sentKey
    | _ => false)

/-- The text wrapped in a fenced code block with language hint "json". -/
def fenceWrapJson (t : List Char) : List Char :=
  "```json\n".toList ++ t ++ "\n```".toList

/-- The text wrapped in a fenced code block without a language hint. -/
def fenceWrapPlain (t : List Char) : List Char :=
  "```\n".toList ++ t ++ "\n```".toList

/-- The output `analyze_comments_batch` produces when every
classification attempt raises a non-quota error with message `msgF k c`
(`k` the global call counter): each comment, in order, annotated with the
default record carrying the message of its last (`maxR`-th) attempt. -/
def expectedAllFail (msgF : Nat → Comment → List Char) (maxR : Nat) :
    Nat → List Comment → List Comment
  | _, [] => []
  | calls0, c :: cs =>
    insertKV c saKey (defaultWithError (msgF (calls0 + maxR - 1) c)) ::
      expectedAllFail msgF maxR (calls0 + maxR) cs

/-- Strip characters satisfying `p` from both ends (the common shape of
`pyStrip` and `trimJson`). -/
def stripBoth (p : Char → Bool) (l : List Char) : List Char :=
  ((l.dropWhile p).reverse.dropWhile p).reverse

/-- The backtick character. -/
def btChar : Char := Char.ofNat 96

/-- `m` occurs as a contiguous slice of `s`. -/
def isSliceOf (m s : List Char) : Prop :=
  ∃ u v, s = u ++ m ++ v

theorem obj_ne_of_lookup_ne (a b : List (List Char × Json)) (k : List Char)
    (h : lookupKV a k ≠ lookupKV b k) : Json.obj a ≠ Json.obj b := by
  intro he
  injection he with h2
  exact h (by rw [h2])

theorem str_lookup_ne (a b : List Char) (h : a ≠ b) :
    some (Json.str a) ≠ some (Json.str b) := by
  intro he
  injection he with h1
  injection h1 with h2
  exact h h2

/-- C9: for every jitter value in [0.5, 1.5), the non-quota backoff delay
computed for retry_count = 2 with base_delay_seconds = 2.0 equals
base_delay_seconds * jitter * 2 ^ retry_count and lies within [4.0, 12.0]
seconds. -/
theorem C9_backoff_formula_and_bounds (j : ℚ) (h1 : 1 / 2 ≤ j) (h2 : j < 3 / 2) :
    backoff_delay 2 j 2 = 2 * j * 2 ^ 2 ∧
    4 ≤ backoff_delay 2 j 2 ∧ backoff_delay 2 j 2 ≤ 12 := by
  have h4 : backoff_delay 2 j 2 = 8 * j := by unfold backoff_delay; ring
  refine ⟨rfl, ?_, ?_⟩ <;> rw [h4] <;> linarith

theorem C9_backoff_formula_and_bounds_witness :
    (1 / 2 : ℚ) ≤ 1 ∧ (1 : ℚ) < 3 / 2 ∧
    (backoff_delay 2 1 2 = 2 * 1 * 2 ^ 2 ∧
     4 ≤ backoff_delay 2 1 2 ∧ backoff_delay 2 1 2 ≤ 12) :=
  ⟨by norm_num, by norm_num,
   C9_backoff_formula_and_bounds 1 (by norm_num) (by norm_num)⟩

/-- C2 is false as stated: the raw text "5" contains no brace pair, yet
the parsing portion of `analyze_comment` does not return the default
record — `json.loads` succeeds with the integer 5, the required-field
check raises `TypeError`, and the outer handler returns the error record
(label "error", non-empty error field). -/
theorem C2_counterexample :
    noBracePair ("5".toList) = true ∧
    analyze_comment_parse ("5".toList) =
      Json.obj (pyErrorKVs (notIterableMsg ("int".toList))) ∧
    analyze_comment_parse ("5".toList) ≠ Json.obj defaultResultKVs := by
  refine ⟨rfl, rfl, ?_⟩
  have h := obj_ne_of_lookup_ne (pyErrorKVs (notIterableMsg ("int".toList)))
    defaultResultKVs sentKey
    (str_lookup_ne errorStr unknownStr (by decide))
  exact fun he => h (by rw [← he]; rfl)

/-- C3 is false as stated: for the single comment annotated with the
default record (sentiment label "unknown"), the summary's "unknown"
bucket is 0 even though one record is labeled "unknown" — line 292 counts
comments *without* a sentiment label, not records labeled "unknown". -/
theorem C3_counterexample :
    specLabelCount [[(saKey, Json.obj defaultResultKVs)]] unknownStr = 1 ∧
    analyze_video_summary [[(saKey, Json.obj defaultResultKVs)]] =
      .ok ([(posStr, 0), (negStr, 0), (neuStr, 0), (unknownStr, 0)], 1, posStr) ∧
    (0 : Nat) ≠ 1 := by
  exact ⟨rfl, rfl, by decide⟩

/-- C4 is false as stated: for the raw text "5```", interpreting it
wrapped in a fenced code block yields the default record, while
interpreting it unwrapped yields the error record — the unwrapped text
loses its trailing "```" to the fence cleanup and parses as the integer
5, which makes the required-field check raise. -/
theorem C4_counterexample :
    analyze_comment_parse (fenceWrapPlain ("5```".toList)) =
      Json.obj defaultResultKVs ∧
    analyze_comment_parse ("5```".toList) =
      Json.obj (pyErrorKVs (notIterableMsg ("int".toList))) ∧
    Json.obj defaultResultKVs ≠ Json.obj (pyErrorKVs (notIterableMsg ("int".toList))) := by
  refine ⟨rfl, rfl, ?_⟩
  exact obj_ne_of_lookup_ne _ _ sentKey (str_lookup_ne unknownStr errorStr (by decide))

/-- C10 is false as stated: the raw text consisting of a JSON array of
the five required field names parses as valid JSON but not as an object,
yet `analyze_comment` returns the array unchanged — every `field in
result` membership test succeeds on the list, so no exception is raised
and no error record is produced. -/
theorem C10_counterexample :
    json_loads ("[\"sentiment\", \"score\", \"key_phrases\", \"topics\", \"emotional_tone\"]".toList) =
      some (Json.arr [Json.str sentKey, Json.str scoreKey, Json.str kpKey,
        Json.str topicsKey, Json.str etKey]) ∧
    isObjJ (Json.arr [Json.str sentKey, Json.str scoreKey, Json.str kpKey,
        Json.str topicsKey, Json.str etKey]) = false ∧
    analyze_comment_parse ("[\"sentiment\", \"score\", \"key_phrases\", \"topics\", \"emotional_tone\"]".toList) =
      Json.arr [Json.str sentKey, Json.str scoreKey, Json.str kpKey,
        Json.str topicsKey, Json.str etKey] ∧
    isObjJ (analyze_comment_parse ("[\"sentiment\", \"score\", \"key_phrases\", \"topics\", \"emotional_tone\"]".toList)) = false := by
  exact ⟨rfl, rfl, rfl, rfl⟩

theorem head_dropWhile_false (p : Char → Bool) :
    ∀ (l : List Char) (c : Char) (cs : List Char),
      l.dropWhile p = c :: cs → p c = false := by
  intro l
  induction l with
  | nil => intro c cs h; simp [List.dropWhile] at h
  | cons a as ih =>
    intro c cs h
    by_cases hp : p a = true
    · rw [List.dropWhile_cons_of_pos hp] at h
      exact ih _ _ h
    · rw [List.dropWhile_cons_of_neg hp] at h
      cases h
      simpa using hp

theorem pyStrip_eq_stripBoth (l : List Char) : pyStrip l = stripBoth isPyWs l := rfl

theorem trimJson_eq_stripBoth (l : List Char) : trimJson l = stripBoth isJsonWs l := rfl

theorem dropWhile_eq_stripBoth_append (p : Char → Bool) (l : List Char) :
    ∃ b, l.dropWhile p = stripBoth p l ++ b ∧ (∀ c ∈ b, p c = true) := by
  refine ⟨((l.dropWhile p).reverse.takeWhile p).reverse, ?_, ?_⟩
  · conv_lhs => rw [← List.reverse_reverse (l.dropWhile p),
      ← List.takeWhile_append_dropWhile (p := p) (l := (l.dropWhile p).reverse)]
    rw [List.reverse_append]
    rfl
  · intro c hc
    rw [List.mem_reverse] at hc
    exact List.mem_takeWhile_imp hc

theorem stripBoth_decomp (p : Char → Bool) (l : List Char) :
    ∃ a b, l = a ++ stripBoth p l ++ b ∧
      (∀ c ∈ a, p c = true) ∧ (∀ c ∈ b, p c = true) := by
  obtain ⟨b, hb, hball⟩ := dropWhile_eq_stripBoth_append p l
  refine ⟨l.takeWhile p, b, ?_, ?_, hball⟩
  · conv_lhs => rw [← List.takeWhile_append_dropWhile (p := p) (l := l)]
    rw [hb, List.append_assoc]
  · intro c hc; exact List.mem_takeWhile_imp hc

theorem stripBoth_head_false (p : Char → Bool) (l : List Char) (c : Char)
    (cs : List Char) (h : stripBoth p l = c :: cs) : p c = false := by
  obtain ⟨b, hb, _⟩ := dropWhile_eq_stripBoth_append p l
  rw [h] at hb
  exact head_dropWhile_false p l c _ hb

theorem stripBoth_getLast_false (p : Char → Bool) (l : List Char) (c : Char)
    (h : (stripBoth p l).getLast? = some c) : p c = false := by
  unfold stripBoth at h
  rw [List.getLast?_reverse] at h
  cases hY : ((l.dropWhile p).reverse.dropWhile p) with
  | nil => rw [hY] at h; simp at h
  | cons y ys =>
    rw [hY] at h
    simp at h
    subst h
    exact head_dropWhile_false p _ _ _ hY

theorem stripBoth_eq_self (p : Char → Bool) (l : List Char)
    (h1 : ∀ c, l.head? = some c → p c = false)
    (h2 : ∀ c, l.getLast? = some c → p c = false) :
    stripBoth p l = l := by
  cases l with
  | nil => rfl
  | cons a as =>
    have ha : p a = false := h1 a rfl
    have hd : (a :: as).dropWhile p = a :: as :=
      List.dropWhile_cons_of_neg (by simp [ha])
    unfold stripBoth
    rw [hd]
    have hne : (a :: as) ≠ [] := by simp
    obtain ⟨g, hg⟩ : ∃ g, (a :: as).getLast? = some g :=
      ⟨(a :: as).getLast hne, List.getLast?_eq_getLast _ hne⟩
    have hpg : p g = false := h2 g hg
    have hrev : (a :: as).reverse.head? = some g := by
      rw [List.head?_reverse]; exact hg
    cases hr : (a :: as).reverse with
    | nil => simp [hr] at hrev
    | cons x xs =>
      rw [hr] at hrev
      simp at hrev
      subst hrev
      have hnx : ¬ p x = true := by simp [hpg]
      rw [List.dropWhile_cons_of_neg hnx, ← hr, List.reverse_reverse]

theorem stripBoth_pad (p : Char → Bool) (l a b : List Char)
    (ha : ∀ c ∈ a, p c = true) (hb : ∀ c ∈ b, p c = true)
    (hl : stripBoth p l = l) : stripBoth p (a ++ l ++ b) = l := by
  cases l with
  | nil =>
    have hall : ∀ c ∈ a ++ ([] : List Char) ++ b, p c = true := by
      intro c hc
      rcases List.mem_append.mp hc with hc1 | hc2
      · rcases List.mem_append.mp hc1 with hc3 | hc4
        · exact ha c hc3
        · simp at hc4
      · exact hb c hc2
    have hd : (a ++ ([] : List Char) ++ b).dropWhile p = [] :=
      List.dropWhile_eq_nil_iff.mpr fun x hx => by simpa using hall x hx
    unfold stripBoth
    rw [hd]
    rfl
  | cons x xs =>
    have hx : p x = false := stripBoth_head_false p (x :: xs) x xs hl
    have hne : (x :: xs) ≠ [] := by simp
    obtain ⟨g, hg⟩ : ∃ g, (x :: xs).getLast? = some g :=
      ⟨(x :: xs).getLast hne, List.getLast?_eq_getLast _ hne⟩
    have hpg : p g = false :=
      stripBoth_getLast_false p (x :: xs) g (by rw [hl]; exact hg)
    have hnx : ¬ p x = true := by simp [hx]
    unfold stripBoth
    rw [List.append_assoc, List.dropWhile_append_of_pos ha,
      List.cons_append, List.dropWhile_cons_of_neg hnx, ← List.cons_append,
      List.reverse_append, List.dropWhile_append_of_pos
        (fun c hc => hb c (List.mem_reverse.mp hc))]
    have hrev : (x :: xs).reverse.head? = some g := by
      rw [List.head?_reverse]; exact hg
    cases hr : (x :: xs).reverse with
    | nil => simp [hr] at hrev
    | cons y ys =>
      rw [hr] at hrev
      simp at hrev
      subst hrev
      have hny : ¬ p y = true := by simp [hpg]
      rw [List.dropWhile_cons_of_neg hny, ← hr, List.reverse_reverse]

theorem stripBoth_self_head (p : Char → Bool) (l : List Char)
    (h : stripBoth p l = l) :
    ∀ c, l.head? = some c → p c = false := by
  intro c hc
  cases l with
  | nil => simp at hc
  | cons a as =>
    simp at hc
    rw [← hc]
    exact stripBoth_head_false p (a :: as) a as h

theorem stripBoth_self_getLast (p : Char → Bool) (l : List Char)
    (h : stripBoth p l = l) :
    ∀ c, l.getLast? = some c → p c = false := by
  intro c hc
  exact stripBoth_getLast_false p l c (by rw [h]; exact hc)

theorem lsw_append_self (p x : List Char) : listStartsWith p (p ++ x) = true := by
  induction p with
  | nil => rfl
  | cons a as ih => simp [listStartsWith, ih]

theorem lsw_head_ne (p : Char) (ps : List Char) (c : Char) (cs : List Char)
    (h : p ≠ c) : listStartsWith (p :: ps) (c :: cs) = false := by
  simp [listStartsWith, h]

theorem fence_chars : fence = [btChar, btChar, btChar] := by decide

theorem fenceJson_chars :
    fenceJson = btChar :: btChar :: btChar :: 'j' :: 's' :: 'o' :: 'n' :: [] := by decide

theorem fence_reverse : fence.reverse = fence := by decide

theorem lsw_fence_of_fenceJson (t : List Char)
    (h : listStartsWith fenceJson t = true) : listStartsWith fence t = true := by
  rw [fenceJson_chars] at h
  rw [fence_chars]
  match t with
  | [] => exact absurd h (by simp [listStartsWith])
  | [a] => exact absurd h (by simp [listStartsWith])
  | [a, b] => exact absurd h (by simp [listStartsWith])
  | a :: b :: c :: r =>
    simp [listStartsWith] at h ⊢
    exact ⟨h.1, h.2.1, h.2.2.1⟩

theorem slice_refl (l : List Char) : isSliceOf l l := ⟨[], [], by simp⟩

theorem slice_trans (a b c : List Char) (h1 : isSliceOf a b)
    (h2 : isSliceOf b c) : isSliceOf a c := by
  obtain ⟨u1, v1, h1⟩ := h1
  obtain ⟨u2, v2, h2⟩ := h2
  exact ⟨u2 ++ u1, v1 ++ v2, by rw [h2, h1]; simp [List.append_assoc]⟩

theorem slice_stripBoth (p : Char → Bool) (l : List Char) :
    isSliceOf (stripBoth p l) l := by
  obtain ⟨a, b, h, _, _⟩ := stripBoth_decomp p l
  exact ⟨a, b, h⟩

theorem slice_drop (n : Nat) (l : List Char) : isSliceOf (l.drop n) l :=
  ⟨l.take n, [], by simp⟩

theorem slice_take (n : Nat) (l : List Char) : isSliceOf (l.take n) l :=
  ⟨[], l.drop n, by simp⟩

theorem slice_pyStrip (l m : List Char) (h : isSliceOf l m) :
    isSliceOf (pyStrip l) m :=
  slice_trans _ _ _ (pyStrip_eq_stripBoth l ▸ slice_stripBoth isPyWs l) h

theorem slice_drop' (n : Nat) (l m : List Char) (h : isSliceOf l m) :
    isSliceOf (l.drop n) m :=
  slice_trans _ _ _ (slice_drop n l) h

theorem slice_take' (n : Nat) (l m : List Char) (h : isSliceOf l m) :
    isSliceOf (l.take n) m :=
  slice_trans _ _ _ (slice_take n l) h

theorem cleanFences_slice (raw : List Char) : isSliceOf (cleanFences raw) raw := by
  unfold cleanFences
  have h0 : isSliceOf (pyStrip raw) raw :=
    slice_pyStrip raw raw (slice_refl raw)
  apply slice_pyStrip
  split
  · split
    · split
      · exact slice_take' _ _ _ (slice_drop' _ _ _ (slice_drop' _ _ _ h0))
      · exact slice_drop' _ _ _ (slice_drop' _ _ _ h0)
    · split
      · exact slice_take' _ _ _ (slice_drop' _ _ _ h0)
      · exact slice_drop' _ _ _ h0
  · split
    · split
      · exact slice_take' _ _ _ (slice_drop' _ _ _ h0)
      · exact slice_drop' _ _ _ h0
    · split
      · exact slice_take' _ _ _ h0
      · exact h0

theorem lew_append_self (pat x : List Char) : listEndsWith pat (x ++ pat) = true := by
  unfold listEndsWith
  rw [List.reverse_append]
  exact lsw_append_self _ _

theorem cleanFences_self (t : List Char) (hs : pyStrip t = t)
    (h1 : listStartsWith fence t = false) (h2 : listEndsWith fence t = false) :
    cleanFences t = t := by
  have hj : listStartsWith fenceJson t = false := by
    cases hcase : listStartsWith fenceJson t with
    | false => rfl
    | true => rw [lsw_fence_of_fenceJson t hcase] at h1; cases h1
  simp only [cleanFences, hs, hj, h1, h2, Bool.false_eq_true, if_false]

theorem cleanFences_wrapJson (t : List Char) (hs : pyStrip t = t) :
    cleanFences (fenceWrapJson t) = t := by
  have hA : "```json\n".toList = fenceJson ++ ['\n'] := by decide
  have hB : "\n```".toList = ['\n'] ++ fence := by decide
  have hw : fenceWrapJson t = fenceJson ++ ('\n' :: (t ++ (['\n'] ++ fence))) := by
    unfold fenceWrapJson
    rw [hA, hB]
    simp
  have hBg : ("\n```".toList).getLast? = some btChar := by decide
  have hAh : ("```json\n".toList).head? = some btChar := by decide
  have hh : (fenceWrapJson t).head? = some btChar := by
    unfold fenceWrapJson
    rw [List.append_assoc, List.head?_append, hAh]
    rfl
  have hg : (fenceWrapJson t).getLast? = some btChar := by
    unfold fenceWrapJson
    rw [List.getLast?_append, hBg]
    rfl
  have hstrip : pyStrip (fenceWrapJson t) = fenceWrapJson t := by
    rw [pyStrip_eq_stripBoth]
    apply stripBoth_eq_self
    · intro c hc
      rw [hh] at hc
      injection hc with hc
      rw [← hc]
      decide
    · intro c hc
      rw [hg] at hc
      injection hc with hc
      rw [← hc]
      decide
  have hstart : listStartsWith fenceJson (fenceWrapJson t) = true := by
    rw [hw]; exact lsw_append_self _ _
  have hdrop : (fenceWrapJson t).drop 7 = '\n' :: (t ++ (['\n'] ++ fence)) := by
    rw [hw]; exact List.drop_left' (by decide)
  have hnotfence : listStartsWith fence ('\n' :: (t ++ (['\n'] ++ fence))) = false := by
    rw [fence_chars]
    exact lsw_head_ne _ _ _ _ (by decide)
  have hsplit : '\n' :: (t ++ (['\n'] ++ fence)) = ('\n' :: (t ++ ['\n'])) ++ fence := by
    simp
  have hends : listEndsWith fence ('\n' :: (t ++ (['\n'] ++ fence))) = true := by
    rw [hsplit]; exact lew_append_self _ _
  have hlen : ('\n' :: (t ++ ['\n'])).length =
      ('\n' :: (t ++ ['\n']) ++ fence).length - 3 := by
    simp [fence_chars]
  have htake : ('\n' :: (t ++ (['\n'] ++ fence))).take
      (('\n' :: (t ++ (['\n'] ++ fence))).length - 3) = '\n' :: (t ++ ['\n']) := by
    rw [hsplit]
    exact List.take_left' hlen
  have hpad : pyStrip ('\n' :: (t ++ ['\n'])) = t := by
    rw [pyStrip_eq_stripBoth]
    have : ('\n' :: (t ++ ['\n'])) = ['\n'] ++ t ++ ['\n'] := by simp
    rw [this]
    exact stripBoth_pad isPyWs t ['\n'] ['\n'] (by decide) (by decide)
      (by rw [← pyStrip_eq_stripBoth]; exact hs)
  simp only [cleanFences, hstrip, hstart, hdrop, hnotfence, hends, htake,
    Bool.false_eq_true, if_false, if_true]
  exact hpad

theorem cleanFences_wrapPlain (t : List Char) (hs : pyStrip t = t) :
    cleanFences (fenceWrapPlain t) = t := by
  have hC : "```\n".toList = fence ++ ['\n'] := by decide
  have hw : fenceWrapPlain t = fence ++ ('\n' :: (t ++ (['\n'] ++ fence))) := by
    unfold fenceWrapPlain
    rw [hC, show "\n```".toList = ['\n'] ++ fence from by decide]
    simp
  have hh : (fenceWrapPlain t).head? = some btChar := by
    unfold fenceWrapPlain
    rw [List.append_assoc, List.head?_append,
      show "```\n".toList.head? = some btChar from by decide]
    rfl
  have hg : (fenceWrapPlain t).getLast? = some btChar := by
    unfold fenceWrapPlain
    rw [List.getLast?_append, show "\n```".toList.getLast? = some btChar from by decide]
    rfl
  have hstrip : pyStrip (fenceWrapPlain t) = fenceWrapPlain t := by
    rw [pyStrip_eq_stripBoth]
    apply stripBoth_eq_self
    · intro c hc
      rw [hh] at hc
      injection hc with hc
      rw [← hc]
      decide
    · intro c hc
      rw [hg] at hc
      injection hc with hc
      rw [← hc]
      decide
  have hjson : listStartsWith fenceJson (fenceWrapPlain t) = false := by
    rw [hw, fence_chars, fenceJson_chars]
    simp [listStartsWith]
  have hstart : listStartsWith fence (fenceWrapPlain t) = true := by
    rw [hw]; exact lsw_append_self _ _
  have hdrop : (fenceWrapPlain t).drop 3 = '\n' :: (t ++ (['\n'] ++ fence)) := by
    rw [hw]; exact List.drop_left' (by decide)
  have hsplit : '\n' :: (t ++ (['\n'] ++ fence)) = ('\n' :: (t ++ ['\n'])) ++ fence := by
    simp
  have hends : listEndsWith fence ('\n' :: (t ++ (['\n'] ++ fence))) = true := by
    rw [hsplit]; exact lew_append_self _ _
  have hlen : ('\n' :: (t ++ ['\n'])).length =
      ('\n' :: (t ++ ['\n']) ++ fence).length - 3 := by
    simp [fence_chars]
  have htake : ('\n' :: (t ++ (['\n'] ++ fence))).take
      (('\n' :: (t ++ (['\n'] ++ fence))).length - 3) = '\n' :: (t ++ ['\n']) := by
    rw [hsplit]
    exact List.take_left' hlen
  have hpad : pyStrip ('\n' :: (t ++ ['\n'])) = t := by
    rw [pyStrip_eq_stripBoth]
    have hx : ('\n' :: (t ++ ['\n'])) = ['\n'] ++ t ++ ['\n'] := by simp
    rw [hx]
    exact stripBoth_pad isPyWs t ['\n'] ['\n'] (by decide) (by decide)
      (by rw [← pyStrip_eq_stripBoth]; exact hs)
  simp only [cleanFences, hstrip, hjson, hstart, hdrop, hends, htake,
    Bool.false_eq_true, if_false, if_true]
  exact hpad

/-- C4 amended: for every trimmed raw text that does not itself begin
with a fence and does not itself end with a fence, interpreting it
wrapped in a fenced code block — with language hint "json" or with no
hint — yields the same record as interpreting it unwrapped.  (As stated
the claim is false: a raw text ending in "```" loses that suffix when
unwrapped, and an opening fence with any hint other than "json" is not
stripped; see the counterexample.) -/
theorem C4_amended_fenced_equivalence (t : List Char) (hs : pyStrip t = t)
    (h1 : listStartsWith fence t = false) (h2 : listEndsWith fence t = false) :
    analyze_comment_parse (fenceWrapJson t) = analyze_comment_parse t ∧
    analyze_comment_parse (fenceWrapPlain t) = analyze_comment_parse t := by
  unfold analyze_comment_parse
  rw [cleanFences_self t hs h1 h2, cleanFences_wrapJson t hs,
    cleanFences_wrapPlain t hs]
  exact ⟨rfl, rfl⟩

theorem C4_amended_fenced_equivalence_witness :
    pyStrip ("\x7b\x7d".toList) = "\x7b\x7d".toList ∧
    listStartsWith fence ("\x7b\x7d".toList) = false ∧
    listEndsWith fence ("\x7b\x7d".toList) = false ∧
    (analyze_comment_parse (fenceWrapJson ("\x7b\x7d".toList)) =
       analyze_comment_parse ("\x7b\x7d".toList) ∧
     analyze_comment_parse (fenceWrapPlain ("\x7b\x7d".toList)) =
       analyze_comment_parse ("\x7b\x7d".toList)) :=
  ⟨rfl, rfl, rfl, C4_amended_fenced_equivalence ("\x7b\x7d".toList) rfl rfl rfl⟩

theorem firstIdx_some_getElem (c : Char) :
    ∀ (l : List Char) (i : Nat), firstIdx c l = some i → l[i]? = some c := by
  intro l
  induction l with
  | nil => intro i h; simp [firstIdx] at h
  | cons x xs ih =>
    intro i h
    by_cases hx : x = c
    · simp [firstIdx, hx] at h
      subst h
      simp [hx]
    · simp [firstIdx, hx] at h
      obtain ⟨j, hj, hji⟩ := h
      subst hji
      rw [List.getElem?_cons_succ]
      exact ih j hj

theorem firstIdx_min (c : Char) :
    ∀ (l : List Char) (p : Nat), l[p]? = some c →
      ∃ i, firstIdx c l = some i ∧ i ≤ p := by
  intro l
  induction l with
  | nil => intro p h; simp at h
  | cons x xs ih =>
    intro p h
    by_cases hx : x = c
    · exact ⟨0, by simp [firstIdx, hx], Nat.zero_le p⟩
    · cases p with
      | zero =>
        rw [List.getElem?_cons_zero] at h
        injection h with h
        exact absurd h hx
      | succ q =>
        rw [List.getElem?_cons_succ] at h
        obtain ⟨j, hj, hle⟩ := ih q h
        exact ⟨j + 1, by simp [firstIdx, hx, hj], Nat.succ_le_succ hle⟩

theorem getElem_some_lt (l : List Char) (i : Nat) (c : Char)
    (h : l[i]? = some c) : i < l.length := by
  obtain ⟨hlt, -⟩ := List.getElem?_eq_some.mp h
  exact hlt

theorem lastIdx_some_getElem (c : Char) (l : List Char) (j : Nat)
    (h : lastIdx c l = some j) : l[j]? = some c := by
  unfold lastIdx at h
  cases hf : firstIdx c l.reverse with
  | none => rw [hf] at h; simp at h
  | some i =>
    rw [hf] at h
    simp at h
    have hget := firstIdx_some_getElem c l.reverse i hf
    have hlt : i < l.reverse.length := getElem_some_lt _ _ _ hget
    rw [List.getElem?_reverse (by simpa using hlt)] at hget
    rw [← h]
    simpa using hget

theorem lastIdx_max (c : Char) (l : List Char) (p : Nat)
    (hp : l[p]? = some c) : ∃ j, lastIdx c l = some j ∧ p ≤ j := by
  have hplt : p < l.length := getElem_some_lt _ _ _ hp
  have harith : l.length - 1 - (l.length - 1 - p) = p := by omega
  have hrev : l.reverse[l.length - 1 - p]? = some c := by
    rw [List.getElem?_reverse (by omega), harith]
    exact hp
  obtain ⟨i, hi, hile⟩ := firstIdx_min c l.reverse (l.length - 1 - p) hrev
  refine ⟨l.length - 1 - i, ?_, by omega⟩
  unfold lastIdx
  rw [hi]
  rfl

theorem getElem_append_left (a b : List Char) (i : Nat) (x : Char)
    (h : a[i]? = some x) : (a ++ b)[i]? = some x := by
  rw [List.getElem?_append_left (getElem_some_lt a i x h)]
  exact h

theorem getElem_append_right (u m : List Char) (i : Nat) (x : Char)
    (h : m[i]? = some x) : (u ++ m)[u.length + i]? = some x := by
  induction u with
  | nil => simpa using h
  | cons y ys ih =>
    have harith : (y :: ys).length + i = (ys.length + i) + 1 := by
      simp [Nat.succ_add]
    rw [List.cons_append, harith, List.getElem?_cons_succ]
    exact ih

theorem extractBraces_some_pair (m sub : List Char)
    (h : extractBraces m = some sub) :
    ∃ (i j : Nat), i ≤ j ∧ m[i]? = some '\x7b' ∧ m[j]? = some '\x7d' := by
  unfold extractBraces at h
  cases hf : firstIdx '\x7b' m with
  | none => rw [hf] at h; simp at h
  | some i =>
    rw [hf] at h
    cases hl : lastIdx '\x7d' m with
    | none => rw [hl] at h; simp at h
    | some j =>
      rw [hl] at h
      by_cases hij : i < j + 1
      · exact ⟨i, j, by omega, firstIdx_some_getElem '\x7b' m i hf,
          lastIdx_some_getElem '\x7d' m j hl⟩
      · simp [hij] at h

theorem noBracePair_slice (s m : List Char) (hsl : isSliceOf m s)
    (h : noBracePair s = true) : extractBraces m = none := by
  cases hx : extractBraces m with
  | none => rfl
  | some sub =>
    obtain ⟨i, j, hij, hbi, hbj⟩ := extractBraces_some_pair m sub hx
    obtain ⟨u, v, huv⟩ := hsl
    have hsi : s[u.length + i]? = some '\x7b' := by
      rw [huv, List.append_assoc]
      exact getElem_append_right u (m ++ v) i _ (getElem_append_left m v i _ hbi)
    have hsj : s[u.length + j]? = some '\x7d' := by
      rw [huv, List.append_assoc]
      exact getElem_append_right u (m ++ v) j _ (getElem_append_left m v j _ hbj)
    obtain ⟨i0, hi0, hi0le⟩ := firstIdx_min '\x7b' s (u.length + i) hsi
    obtain ⟨j0, hj0, hj0ge⟩ := lastIdx_max '\x7d' s (u.length + j) hsj
    unfold noBracePair at h
    rw [hi0, hj0] at h
    have : j0 < i0 := of_decide_eq_true h
    omega

/-- C2 amended: for every raw text that contains no brace pair and whose
cleaned text is not valid JSON, the parsing portion of `analyze_comment`
returns the default record (label "unknown", score 0.0, empty lists, no
error field).  (As stated the claim is false: a brace-free text that is
itself valid JSON, such as "5", parses and then makes the required-field
check raise, producing the error record; see the counterexample.) -/
theorem C2_amended_no_brace_default (s : List Char)
    (hnb : noBracePair s = true)
    (hp : json_loads (cleanFences s) = none) :
    analyze_comment_parse s = Json.obj defaultResultKVs := by
  have hx : extractBraces (cleanFences s) = none :=
    noBracePair_slice s (cleanFences s) (cleanFences_slice s) hnb
  unfold analyze_comment_parse parseStage parsedResult
  rw [hp, hx]
  rfl

theorem C2_amended_no_brace_default_witness :
    noBracePair ("hello".toList) = true ∧
    json_loads (cleanFences ("hello".toList)) = none ∧
    analyze_comment_parse ("hello".toList) = Json.obj defaultResultKVs :=
  ⟨rfl, rfl, C2_amended_no_brace_default ("hello".toList) rfl rfl⟩

theorem lookupKV_insertKV_self (d : List (List Char × Json)) (k : List Char)
    (v : Json) : lookupKV (insertKV d k v) k = some v := by
  induction d with
  | nil => simp [insertKV, lookupKV]
  | cons p rest ih =>
    obtain ⟨k0, v0⟩ := p
    by_cases hk : k0 = k
    · simp [insertKV, hk, lookupKV]
    · simp [insertKV, hk, lookupKV, ih]

theorem lookupKV_insertKV_ne (d : List (List Char × Json)) (k : List Char)
    (v : Json) (k2 : List Char) (h : k2 ≠ k) :
    lookupKV (insertKV d k v) k2 = lookupKV d k2 := by
  have hks : ¬ k = k2 := fun he => h he.symm
  induction d with
  | nil => simp [insertKV, lookupKV, hks]
  | cons p rest ih =>
    obtain ⟨k0, v0⟩ := p
    by_cases hk : k0 = k
    · subst hk
      simp [insertKV, lookupKV, hks]
    · simp only [insertKV, if_neg hk, lookupKV]
      by_cases hk2 : k0 = k2
      · simp [hk2]
      · simp [hk2, ih]

theorem processItem_skip (classify : Nat → Comment → Except (List Char) Json)
    (maxR : Nat) (c : Comment) (calls : Nat) (h : hasKey c saKey = true) :
    processItem classify maxR c calls = (c, calls) := by
  simp [processItem, h]

theorem processItem_fresh (classify : Nat → Comment → Except (List Char) Json)
    (maxR : Nat) (c : Comment) (calls : Nat) (h : hasKey c saKey = false) :
    ∃ r calls2, processItem classify maxR c calls = (insertKV c saKey r, calls2) := by
  unfold processItem
  rw [h]
  simp only [Bool.false_eq_true, if_false]
  cases hi : itemLoop classify c maxR maxR 0 calls with
  | mk rc rest =>
    cases rest with
    | mk calls2 resOpt =>
      cases resOpt with
      | none => exact ⟨defaultWithError maxRetriesMsg, calls2, rfl⟩
      | some r => exact ⟨r, calls2, rfl⟩

theorem processItems_append (classify : Nat → Comment → Except (List Char) Json)
    (maxR : Nat) : ∀ (a b : List Comment) (calls : Nat),
    processItems classify maxR (a ++ b) calls =
      ((processItems classify maxR a calls).1 ++
        (processItems classify maxR b (processItems classify maxR a calls).2).1,
       (processItems classify maxR b (processItems classify maxR a calls).2).2) := by
  intro a
  induction a with
  | nil => intro b calls; simp [processItems]
  | cons c cs ih =>
    intro b calls
    cases hpi : processItem classify maxR c calls with
    | mk r calls2 =>
      cases hcs : processItems classify maxR cs calls2 with
      | mk rs calls3 =>
        cases hb : processItems classify maxR b calls3 with
        | mk rb cb =>
          have hih := ih b calls2
          rw [hcs, hb] at hih
          simp [processItems, hpi, hcs, hb, hih]

theorem processChunks_chunksOf (classify : Nat → Comment → Except (List Char) Json)
    (maxR bs : Nat) (hbs : 0 < bs) :
    ∀ (f : Nat) (l : List Comment) (calls : Nat), l.length ≤ f →
      processChunks classify maxR (chunksOfAux bs f l) calls =
        processItems classify maxR l calls := by
  intro f
  induction f with
  | zero =>
    intro l calls hl
    have : l = [] := List.length_eq_zero.mp (Nat.le_zero.mp hl)
    subst this
    rfl
  | succ f ih =>
    intro l calls hl
    cases l with
    | nil => rfl
    | cons c cs =>
      have hdrop : ((c :: cs).drop bs).length ≤ f := by
        rw [List.length_drop]
        simp at hl ⊢
        omega
      have hjoin : (c :: cs).take bs ++ (c :: cs).drop bs = c :: cs :=
        List.take_append_drop bs (c :: cs)
      show processChunks classify maxR
        ((c :: cs).take bs :: chunksOfAux bs f ((c :: cs).drop bs)) calls = _
      cases htake : processItems classify maxR ((c :: cs).take bs) calls with
      | mk r1 c1 =>
        have hrest := ih ((c :: cs).drop bs) c1 hdrop
        cases hrest2 : processItems classify maxR ((c :: cs).drop bs) c1 with
        | mk r2 c2 =>
          rw [hrest2] at hrest
          have happ := processItems_append classify maxR
            ((c :: cs).take bs) ((c :: cs).drop bs) calls
          rw [hjoin, htake, hrest2] at happ
          simp [processChunks, htake, hrest, hrest2, happ]

theorem batch_eq_processItems (classify : Nat → Comment → Except (List Char) Json)
    (comments : List Comment) (bs maxR : Nat) (hbs : 0 < bs) :
    analyze_comments_batch classify comments bs maxR =
      processItems classify maxR comments 0 :=
  processChunks_chunksOf classify maxR bs hbs comments.length comments 0 le_rfl

theorem processItems_forall2 (classify : Nat → Comment → Except (List Char) Json)
    (maxR : Nat) :
    ∀ (l : List Comment) (calls : Nat),
      List.Forall₂
        (fun cin cout =>
          (hasKey cin saKey = true → cout = cin) ∧
          ∀ k, k ≠ saKey → lookupKV cout k = lookupKV cin k)
        l (processItems classify maxR l calls).1 := by
  intro l
  induction l with
  | nil => intro calls; exact List.Forall₂.nil
  | cons c cs ih =>
    intro calls
    by_cases hc : hasKey c saKey = true
    · rw [show processItems classify maxR (c :: cs) calls =
          (c :: (processItems classify maxR cs calls).1,
           (processItems classify maxR cs calls).2) from by
        simp [processItems, processItem_skip classify maxR c calls hc]]
      exact List.Forall₂.cons ⟨fun _ => rfl, fun k _ => rfl⟩ (ih calls)
    · have hc2 : hasKey c saKey = false := by
        cases hcc : hasKey c saKey with
        | false => rfl
        | true => exact absurd hcc hc
      obtain ⟨r, calls2, hpi⟩ := processItem_fresh classify maxR c calls hc2
      rw [show processItems classify maxR (c :: cs) calls =
          (insertKV c saKey r :: (processItems classify maxR cs calls2).1,
           (processItems classify maxR cs calls2).2) from by
        simp [processItems, hpi]]
      refine List.Forall₂.cons ⟨fun hck => absurd hck hc, ?_⟩ (ih calls2)
      intro k hk
      exact lookupKV_insertKV_ne c saKey r k hk

/-- C7: for every classification behavior and every input list,
`analyze_comments_batch` returns an output list of the same length whose
elements correspond one-to-one, in order, to the input comments (each
output element is its input comment, either passed through unchanged or
annotated with a sentiment record under "sentiment_analysis"); on the
empty input it returns the empty output having made no classification
calls.  (`batch_size >= 1`, as `range(0, n, 0)` raises in Python.) -/
theorem C7_batch_order_and_length (classify : Nat → Comment → Except (List Char) Json)
    (comments : List Comment) (bs maxR : Nat) (hbs : 0 < bs) :
    (analyze_comments_batch classify comments bs maxR).1.length = comments.length ∧
    List.Forall₂
      (fun cin cout => cout = cin ∨ ∃ r, cout = insertKV cin saKey r)
      comments (analyze_comments_batch classify comments bs maxR).1 ∧
    analyze_comments_batch classify [] bs maxR = ([], 0) := by
  have hf2 :
      List.Forall₂
        (fun cin cout =>
          (hasKey cin saKey = true → cout = cin) ∧
          ∀ k, k ≠ saKey → lookupKV cout k = lookupKV cin k)
        comments (analyze_comments_batch classify comments bs maxR).1 := by
    rw [batch_eq_processItems classify comments bs maxR hbs]
    exact processItems_forall2 classify maxR comments 0
  refine ⟨(List.Forall₂.length_eq hf2).symm, ?_, rfl⟩
  rw [batch_eq_processItems classify comments bs maxR hbs]
  clear hf2
  suffices hgen : ∀ (l : List Comment) (calls : Nat),
      List.Forall₂
        (fun cin cout => cout = cin ∨ ∃ r, cout = insertKV cin saKey r)
        l (processItems classify maxR l calls).1 from hgen comments 0
  intro l
  induction l with
  | nil => intro calls; exact List.Forall₂.nil
  | cons c cs ih =>
    intro calls
    by_cases hc : hasKey c saKey = true
    · rw [show processItems classify maxR (c :: cs) calls =
          (c :: (processItems classify maxR cs calls).1,
           (processItems classify maxR cs calls).2) from by
        simp [processItems, processItem_skip classify maxR c calls hc]]
      exact List.Forall₂.cons (Or.inl rfl) (ih calls)
    · have hc2 : hasKey c saKey = false := by
        cases hcc : hasKey c saKey with
        | false => rfl
        | true => exact absurd hcc hc
      obtain ⟨r, calls2, hpi⟩ := processItem_fresh classify maxR c calls hc2
      rw [show processItems classify maxR (c :: cs) calls =
          (insertKV c saKey r :: (processItems classify maxR cs calls2).1,
           (processItems classify maxR cs calls2).2) from by
        simp [processItems, hpi]]
      exact List.Forall₂.cons (Or.inr ⟨r, rfl⟩) (ih calls2)

theorem C7_batch_order_and_length_witness :
    (0 : Nat) < 10 ∧
    ((analyze_comments_batch (fun _ _ => Except.ok Json.null)
        [[("text".toList, Json.str ("hi".toList))]] 10 3).1.length =
      [[("text".toList, Json.str ("hi".toList))]].length ∧
    List.Forall₂
      (fun cin cout => cout = cin ∨ ∃ r, cout = insertKV cin saKey r)
      [[("text".toList, Json.str ("hi".toList))]]
      (analyze_comments_batch (fun _ _ => Except.ok Json.null)
        [[("text".toList, Json.str ("hi".toList))]] 10 3).1 ∧
    analyze_comments_batch (fun _ _ => Except.ok Json.null) [] 10 3 = ([], 0)) :=
  ⟨by decide,
   C7_batch_order_and_length (fun _ _ => Except.ok Json.null)
     [[("text".toList, Json.str ("hi".toList))]] 10 3 (by decide)⟩

/-- C8: an input comment already carrying a "sentiment_analysis" record
is passed through unchanged with zero classification calls consumed (the
call counter is returned untouched); and for every input comment the
original record is not mutated — annotation happens on a copy, so every
output element agrees with its input on all keys other than
"sentiment_analysis", and an already-annotated input is returned as-is. -/
theorem C8_skip_and_copy (classify : Nat → Comment → Except (List Char) Json)
    (bs maxR calls : Nat) (c : Comment) (comments : List Comment)
    (hbs : 0 < bs) :
    (hasKey c saKey = true → processItem classify maxR c calls = (c, calls)) ∧
    List.Forall₂
      (fun cin cout =>
        (hasKey cin saKey = true → cout = cin) ∧
        ∀ k, k ≠ saKey → lookupKV cout k = lookupKV cin k)
      comments (analyze_comments_batch classify comments bs maxR).1 := by
  constructor
  · intro h
    exact processItem_skip classify maxR c calls h
  · rw [batch_eq_processItems classify comments bs maxR hbs]
    exact processItems_forall2 classify maxR comments 0

theorem C8_skip_and_copy_witness :
    (0 : Nat) < 10 ∧
    ((hasKey [(saKey, Json.obj defaultResultKVs)] saKey = true →
      processItem (fun _ _ => Except.ok Json.null) 3
        [(saKey, Json.obj defaultResultKVs)] 0 =
        ([(saKey, Json.obj defaultResultKVs)], 0)) ∧
    List.Forall₂
      (fun cin cout =>
        (hasKey cin saKey = true → cout = cin) ∧
        ∀ k, k ≠ saKey → lookupKV cout k = lookupKV cin k)
      [[(saKey, Json.obj defaultResultKVs)]]
      (analyze_comments_batch (fun _ _ => Except.ok Json.null)
        [[(saKey, Json.obj defaultResultKVs)]] 10 3).1) :=
  ⟨by decide,
   C8_skip_and_copy (fun _ _ => Except.ok Json.null) 10 3 0
     [(saKey, Json.obj defaultResultKVs)]
     [[(saKey, Json.obj defaultResultKVs)]] (by decide)⟩

theorem itemLoop_all_fail (classify : Nat → Comment → Except (List Char) Json)
    (msgF : Nat → Comment → List Char) (c : Comment) (maxR : Nat)
    (hcl : ∀ k cc, classify k cc = Except.error (msgF k cc))
    (hnq : ∀ k cc, isQuotaMsg (msgF k cc) = false) :
    ∀ (d rc calls : Nat), rc + d = maxR → 0 < d →
      itemLoop classify c maxR d rc calls =
        (maxR, calls + d, some (defaultWithError (msgF (calls + d - 1) c))) := by
  intro d
  induction d with
  | zero => intro rc calls _ h0; omega
  | succ d ih =>
    intro rc calls hsum _
    have hrc : rc < maxR := by omega
    rw [itemLoop]
    rw [if_pos hrc, hcl calls c]
    simp only [hnq calls c, Bool.false_eq_true, if_false]
    cases d with
    | zero =>
      have hle : maxR ≤ rc + 1 := by omega
      rw [if_pos hle]
      have h1 : rc + 1 = maxR := by omega
      have h2 : calls + 1 - 1 = calls := by omega
      rw [h1, h2]
    | succ e =>
      have hle : ¬ maxR ≤ rc + 1 := by omega
      rw [if_neg hle]
      rw [ih (rc + 1) (calls + 1) (by omega) (by omega)]
      have h1 : calls + 1 + (e + 1) = calls + (e + 1 + 1) := by omega
      rw [h1]

theorem processItem_all_fail (classify : Nat → Comment → Except (List Char) Json)
    (msgF : Nat → Comment → List Char) (c : Comment) (maxR calls : Nat)
    (hmr : 0 < maxR)
    (hcl : ∀ k cc, classify k cc = Except.error (msgF k cc))
    (hnq : ∀ k cc, isQuotaMsg (msgF k cc) = false)
    (hfresh : hasKey c saKey = false) :
    processItem classify maxR c calls =
      (insertKV c saKey (defaultWithError (msgF (calls + maxR - 1) c)),
       calls + maxR) := by
  unfold processItem
  rw [hfresh]
  simp only [Bool.false_eq_true, if_false]
  rw [itemLoop_all_fail classify msgF c maxR hcl hnq maxR 0 calls (by omega) hmr]

theorem processItems_all_fail (classify : Nat → Comment → Except (List Char) Json)
    (msgF : Nat → Comment → List Char) (maxR : Nat) (hmr : 0 < maxR)
    (hcl : ∀ k cc, classify k cc = Except.error (msgF k cc))
    (hnq : ∀ k cc, isQuotaMsg (msgF k cc) = false) :
    ∀ (l : List Comment) (calls : Nat),
      (∀ cc ∈ l, hasKey cc saKey = false) →
      processItems classify maxR l calls =
        (expectedAllFail msgF maxR calls l, calls + maxR * l.length) := by
  intro l
  induction l with
  | nil => intro calls _; simp [processItems, expectedAllFail]
  | cons c cs ih =>
    intro calls hfresh
    have hpi := processItem_all_fail classify msgF c maxR calls hmr hcl hnq
      (hfresh c (by simp))
    have hcs := ih (calls + maxR) (fun cc hcc => hfresh cc (by simp [hcc]))
    simp only [processItems, hpi, hcs, expectedAllFail, List.length_cons,
      Prod.mk.injEq]
    refine ⟨trivial, ?_⟩
    ring

/-- C1: for every input list of fresh comments and every classification
behavior that always raises a non-quota error (message `msgF k c` on the
`k`-th call), `analyze_comments_batch` makes exactly `max_retries`
classification attempts per item (so `max_retries * N` calls in total)
and returns, for each comment in order, the comment annotated with the
default record of label "unknown" whose "error" field equals the message
of that item's last attempt — non-empty whenever the raised messages
are.  (`batch_size >= 1` and `max_retries >= 1`, the source defaults
being 10 and 3.) -/
theorem C1_all_fail_unknown_records (classify : Nat → Comment → Except (List Char) Json)
    (msgF : Nat → Comment → List Char) (comments : List Comment) (bs maxR : Nat)
    (hbs : 0 < bs) (hmr : 0 < maxR)
    (hcl : ∀ k c, classify k c = Except.error (msgF k c))
    (hne : ∀ k c, msgF k c ≠ [])
    (hnq : ∀ k c, isQuotaMsg (msgF k c) = false)
    (hfresh : ∀ c ∈ comments, hasKey c saKey = false) :
    analyze_comments_batch classify comments bs maxR =
      (expectedAllFail msgF maxR 0 comments, maxR * comments.length) ∧
    (expectedAllFail msgF maxR 0 comments).length = comments.length ∧
    ∀ cout ∈ expectedAllFail msgF maxR 0 comments,
      ∃ e kvs, e ≠ [] ∧
        lookupKV cout saKey = some (Json.obj kvs) ∧
        lookupKV kvs sentKey = some (Json.str unknownStr) ∧
        lookupKV kvs errKey = some (Json.str e) := by
  refine ⟨?_, ?_, ?_⟩
  · rw [batch_eq_processItems classify comments bs maxR hbs]
    rw [processItems_all_fail classify msgF maxR hmr hcl hnq comments 0 hfresh]
    simp
  · clear hfresh
    suffices hgen : ∀ (l : List Comment) (calls : Nat),
        (expectedAllFail msgF maxR calls l).length = l.length from
      hgen comments 0
    intro l
    induction l with
    | nil => intro calls; rfl
    | cons c cs ih => intro calls; simp [expectedAllFail, ih]
  · suffices hgen : ∀ (l : List Comment) (calls : Nat),
        (∀ cc ∈ l, hasKey cc saKey = false) →
        ∀ cout ∈ expectedAllFail msgF maxR calls l,
          ∃ e kvs, e ≠ [] ∧
            lookupKV cout saKey = some (Json.obj kvs) ∧
            lookupKV kvs sentKey = some (Json.str unknownStr) ∧
            lookupKV kvs errKey = some (Json.str e) from
      hgen comments 0 hfresh
    intro l
    induction l with
    | nil => intro calls _ cout hc; simp [expectedAllFail] at hc
    | cons c cs ih =>
      intro calls hfr cout hc
      rw [expectedAllFail] at hc
      rcases List.mem_cons.mp hc with hhd | htl
      · refine ⟨msgF (calls + maxR - 1) c,
          insertKV defaultResultKVs errKey
            (Json.str (msgF (calls + maxR - 1) c)),
          hne _ _, ?_, rfl, rfl⟩
        rw [hhd]
        exact lookupKV_insertKV_self c saKey _
      · exact ih (calls + maxR) (fun cc hcc => hfr cc (by simp [hcc])) cout htl

theorem C1_all_fail_unknown_records_witness :
    (0 : Nat) < 10 ∧ (0 : Nat) < 3 ∧
    ("boom".toList ≠ ([] : List Char)) ∧
    isQuotaMsg ("boom".toList) = false ∧
    (∀ c ∈ [[("text".toList, Json.str ("hi".toList))]], hasKey c saKey = false) ∧
    (analyze_comments_batch
        (fun _ _ => Except.error ("boom".toList))
        [[("text".toList, Json.str ("hi".toList))]] 10 3 =
      (expectedAllFail (fun _ _ => "boom".toList) 3 0
        [[("text".toList, Json.str ("hi".toList))]],
       3 * [[("text".toList, Json.str ("hi".toList))]].length) ∧
      (expectedAllFail (fun _ _ => "boom".toList) 3 0
        [[("text".toList, Json.str ("hi".toList))]]).length =
        [[("text".toList, Json.str ("hi".toList))]].length ∧
      ∀ cout ∈ expectedAllFail (fun _ _ => "boom".toList) 3 0
          [[("text".toList, Json.str ("hi".toList))]],
        ∃ e kvs, e ≠ [] ∧
          lookupKV cout saKey = some (Json.obj kvs) ∧
          lookupKV kvs sentKey = some (Json.str unknownStr) ∧
          lookupKV kvs errKey = some (Json.str e)) :=
  ⟨by decide, by decide, by decide, by decide, by decide,
   C1_all_fail_unknown_records
     (fun _ _ => Except.error ("boom".toList))
     (fun _ _ => "boom".toList)
     [[("text".toList, Json.str ("hi".toList))]] 10 3
     (by decide) (by decide) (fun _ _ => rfl)
     (fun _ _ => show "boom".toList ≠ [] by decide)
     (fun _ _ => show isQuotaMsg ("boom".toList) = false by decide)
     (by decide)⟩

theorem lookupKV_none_of_hasKey_false (kvs : List (List Char × Json))
    (k : List Char) (h : hasKey kvs k = false) : lookupKV kvs k = none := by
  induction kvs with
  | nil => rfl
  | cons p rest ih =>
    obtain ⟨k0, v0⟩ := p
    simp [hasKey] at h
    obtain ⟨h1, h2⟩ := h
    simp [lookupKV, h1]
    exact ih (by simpa [hasKey] using h2)

theorem lookupKV_some_of_hasKey_true (kvs : List (List Char × Json))
    (k : List Char) (h : hasKey kvs k = true) : ∃ v, lookupKV kvs k = some v := by
  induction kvs with
  | nil => simp [hasKey] at h
  | cons p rest ih =>
    obtain ⟨k0, v0⟩ := p
    by_cases hk : k0 = k
    · exact ⟨v0, by simp [lookupKV, hk]⟩
    · simp [hasKey, hk] at h
      obtain ⟨v, hv⟩ := ih (by simpa [hasKey] using h)
      exact ⟨v, by simp [lookupKV, hk, hv]⟩

theorem sentimentsOf_spec (cs : List Comment)
    (hobj : ∀ c ∈ cs, ∀ sa, lookupKV c saKey = some sa →
      ∃ kvs, sa = Json.obj kvs) :
    ∃ sents, sentimentsOf cs = .ok sents ∧
      sents.length = specHasLabelCount cs ∧
      ∀ lab, countLabel sents lab = specLabelCount cs lab := by
  induction cs with
  | nil => exact ⟨[], rfl, rfl, fun lab => rfl⟩
  | cons c cs ih =>
    obtain ⟨sents, hok, hlen, hcount⟩ :=
      ih (fun cc hcc => hobj cc (by simp [hcc]))
    cases hsa : lookupKV c saKey with
    | none =>
      refine ⟨sents, ?_, ?_, ?_⟩
      · simp [sentimentsOf, commentLabel, hsa, hok]
      · simpa [specHasLabelCount, List.countP_cons, hsa] using hlen
      · intro lab
        simp [specLabelCount, List.countP_cons, hsa]
        simpa [specLabelCount] using hcount lab
    | some sa =>
      obtain ⟨kvs, hkvs⟩ := hobj c (by simp) sa hsa
      subst hkvs
      cases hhk : hasKey kvs sentKey with
      | false =>
        have hlk : lookupKV kvs sentKey = none :=
          lookupKV_none_of_hasKey_false kvs sentKey hhk
        refine ⟨sents, ?_, ?_, ?_⟩
        · simp [sentimentsOf, commentLabel, hsa, pyContains, hhk, hok]
        · simp [specHasLabelCount, List.countP_cons, hsa, hhk]
          simpa [specHasLabelCount] using hlen
        · intro lab
          simp [specLabelCount, List.countP_cons, hsa, hlk]
          simpa [specLabelCount] using hcount lab
      | true =>
        obtain ⟨v, hv⟩ := lookupKV_some_of_hasKey_true kvs sentKey hhk
        refine ⟨v :: sents, ?_, ?_, ?_⟩
        · simp [sentimentsOf, commentLabel, hsa, pyContains, hhk, hv, hok]
        · simp [specHasLabelCount, List.countP_cons, hsa, hhk]
          simpa [specHasLabelCount] using hlen
        · intro lab
          simp [countLabel, List.countP_cons, specLabelCount, hsa, hv]
          have := hcount lab
          simp [countLabel, specLabelCount] at this
          simp [this]

theorem pyMaxKeyGo_spec :
    ∀ (rest : List (List Char × Nat)) (k : List Char) (v : Nat),
      (pyMaxKeyGo k v rest = k ∧ ∀ kv ∈ rest, kv.2 ≤ v) ∨
      (∃ (i w : Nat), rest[i]? = some (pyMaxKeyGo k v rest, w) ∧ v < w ∧
        (∀ kv ∈ rest, kv.2 ≤ w) ∧
        ∀ (j : Nat) (kv : List Char × Nat), j < i → rest[j]? = some kv →
          kv.2 < w) := by
  intro rest
  induction rest with
  | nil => intro k v; exact Or.inl ⟨rfl, by simp⟩
  | cons p rest ih =>
    intro k v
    obtain ⟨k2, v2⟩ := p
    by_cases hlt : v < v2
    · rw [show pyMaxKeyGo k v ((k2, v2) :: rest) = pyMaxKeyGo k2 v2 rest from by
        simp [pyMaxKeyGo, hlt]]
      rcases ih k2 v2 with ⟨heq, hle⟩ | ⟨i, w, hi, hw, hle, hbef⟩
      · refine Or.inr ⟨0, v2, by simp [heq], hlt, ?_, by omega⟩
        intro kv hkv
        rcases List.mem_cons.mp hkv with h | h
        · rw [h]
        · exact hle kv h
      · refine Or.inr ⟨i + 1, w, by simpa using hi, by omega, ?_, ?_⟩
        · intro kv hkv
          rcases List.mem_cons.mp hkv with h | h
          · rw [h]; exact le_of_lt hw
          · exact hle kv h
        · intro j kv hj hkv
          cases j with
          | zero =>
            rw [List.getElem?_cons_zero] at hkv
            injection hkv with hkv
            rw [← hkv]
            exact hw
          | succ j2 =>
            rw [List.getElem?_cons_succ] at hkv
            exact hbef j2 kv (by omega) hkv
    · rw [show pyMaxKeyGo k v ((k2, v2) :: rest) = pyMaxKeyGo k v rest from by
        simp [pyMaxKeyGo, hlt]]
      rcases ih k v with ⟨heq, hle⟩ | ⟨i, w, hi, hw, hle, hbef⟩
      · refine Or.inl ⟨heq, ?_⟩
        intro kv hkv
        rcases List.mem_cons.mp hkv with h | h
        · rw [h]; omega
        · exact hle kv h
      · refine Or.inr ⟨i + 1, w, by simpa using hi, hw, ?_, ?_⟩
        · intro kv hkv
          rcases List.mem_cons.mp hkv with h | h
          · rw [h]; omega
          · exact hle kv h
        · intro j kv hj hkv
          cases j with
          | zero =>
            rw [List.getElem?_cons_zero] at hkv
            injection hkv with hkv
            rw [← hkv]
            omega
          | succ j2 =>
            rw [List.getElem?_cons_succ] at hkv
            exact hbef j2 kv (by omega) hkv

theorem pyMaxKey_spec (l : List (List Char × Nat)) (k : List Char)
    (hk : pyMaxKey l = some k) :
    ∃ (i v : Nat), l[i]? = some (k, v) ∧ (∀ kv ∈ l, kv.2 ≤ v) ∧
      ∀ (j : Nat) (kv : List Char × Nat), j < i → l[j]? = some kv →
        kv.2 < v := by
  cases l with
  | nil => simp [pyMaxKey] at hk
  | cons p rest =>
    obtain ⟨k0, v0⟩ := p
    simp [pyMaxKey] at hk
    rcases pyMaxKeyGo_spec rest k0 v0 with ⟨heq, hle⟩ | ⟨i, w, hi, hw, hle, hbef⟩
    · refine ⟨0, v0, by simp [← hk, heq], ?_, by omega⟩
      intro kv hkv
      rcases List.mem_cons.mp hkv with h | h
      · rw [h]
      · exact hle kv h
    · refine ⟨i + 1, w, by simp [← hk]; exact hi, ?_, ?_⟩
      · intro kv hkv
        rcases List.mem_cons.mp hkv with h | h
        · rw [h]; exact le_of_lt hw
        · exact hle kv h
      · intro j kv hj hkv
        cases j with
        | zero =>
          rw [List.getElem?_cons_zero] at hkv
          injection hkv with hkv
          rw [← hkv]
          exact hw
        | succ j2 =>
          rw [List.getElem?_cons_succ] at hkv
          exact hbef j2 kv (by omega) hkv

/-- C3 amended: for every list of annotated comment records (each
carried sentiment record being a dict), the summary has total_comments
equal to the number of records, per-label counts for positive, negative
and neutral, an "unknown" bucket counting the records *without* a
sentiment label (not the records labeled "unknown"), and
overall_sentiment equal to the first label, in the insertion order
positive, negative, neutral, unknown, whose count no other label
exceeds; in particular counts of 3 positive, 1 negative and 1 neutral
yield overall_sentiment "positive".  (As stated the claim is false: a
record labeled "unknown" is counted in no bucket, see the
counterexample.) -/
theorem C3_amended_summary (cs : List Comment)
    (hobj : ∀ c ∈ cs, ∀ sa, lookupKV c saKey = some sa →
      ∃ kvs, sa = Json.obj kvs) :
    (∃ counts overall,
      analyze_video_summary cs = .ok (counts, cs.length, overall) ∧
      counts = [(posStr, specLabelCount cs posStr),
        (negStr, specLabelCount cs negStr),
        (neuStr, specLabelCount cs neuStr),
        (unknownStr, cs.length - specHasLabelCount cs)] ∧
      ∃ (i v : Nat), counts[i]? = some (overall, v) ∧
        (∀ kv ∈ counts, kv.2 ≤ v) ∧
        ∀ (j : Nat) (kv : List Char × Nat), j < i → counts[j]? = some kv →
          kv.2 < v) ∧
    analyze_video_summary
      [[(saKey, Json.obj [(sentKey, Json.str posStr)])],
       [(saKey, Json.obj [(sentKey, Json.str posStr)])],
       [(saKey, Json.obj [(sentKey, Json.str posStr)])],
       [(saKey, Json.obj [(sentKey, Json.str negStr)])],
       [(saKey, Json.obj [(sentKey, Json.str neuStr)])]] =
      .ok ([(posStr, 3), (negStr, 1), (neuStr, 1), (unknownStr, 0)], 5, posStr) := by
  constructor
  · obtain ⟨sents, hok, hlen, hcount⟩ := sentimentsOf_spec cs hobj
    have hcounts : sentimentCounts sents cs.length =
        [(posStr, specLabelCount cs posStr),
         (negStr, specLabelCount cs negStr),
         (neuStr, specLabelCount cs neuStr),
         (unknownStr, cs.length - specHasLabelCount cs)] := by
      simp [sentimentCounts, hcount, hlen]
    cases hmk : pyMaxKey (sentimentCounts sents cs.length) with
    | none => simp [pyMaxKey, sentimentCounts] at hmk
    | some ov =>
      refine ⟨sentimentCounts sents cs.length, ov, ?_, hcounts, ?_⟩
      · simp only [analyze_video_summary, hok, hmk]
      · exact pyMaxKey_spec _ ov hmk
  · rfl

theorem C3_amended_summary_witness :
    (∀ c ∈ [[(saKey, Json.obj defaultResultKVs)]], ∀ sa,
        lookupKV c saKey = some sa → ∃ kvs, sa = Json.obj kvs) ∧
    ((∃ counts overall,
      analyze_video_summary [[(saKey, Json.obj defaultResultKVs)]] =
        .ok (counts, [[(saKey, Json.obj defaultResultKVs)]].length, overall) ∧
      counts = [(posStr, specLabelCount [[(saKey, Json.obj defaultResultKVs)]] posStr),
        (negStr, specLabelCount [[(saKey, Json.obj defaultResultKVs)]] negStr),
        (neuStr, specLabelCount [[(saKey, Json.obj defaultResultKVs)]] neuStr),
        (unknownStr, [[(saKey, Json.obj defaultResultKVs)]].length -
          specHasLabelCount [[(saKey, Json.obj defaultResultKVs)]])] ∧
      ∃ (i v : Nat), counts[i]? = some (overall, v) ∧
        (∀ kv ∈ counts, kv.2 ≤ v) ∧
        ∀ (j : Nat) (kv : List Char × Nat), j < i → counts[j]? = some kv →
          kv.2 < v) ∧
    analyze_video_summary
      [[(saKey, Json.obj [(sentKey, Json.str posStr)])],
       [(saKey, Json.obj [(sentKey, Json.str posStr)])],
       [(saKey, Json.obj [(sentKey, Json.str posStr)])],
       [(saKey, Json.obj [(sentKey, Json.str negStr)])],
       [(saKey, Json.obj [(sentKey, Json.str neuStr)])]] =
      .ok ([(posStr, 3), (negStr, 1), (neuStr, 1), (unknownStr, 0)], 5, posStr)) :=
  ⟨by
    intro c hc sa hsa
    simp at hc
    subst hc
    simp [lookupKV] at hsa
    exact ⟨defaultResultKVs, hsa.symm⟩,
   C3_amended_summary [[(saKey, Json.obj defaultResultKVs)]] (by
    intro c hc sa hsa
    simp at hc
    subst hc
    simp [lookupKV] at hsa
    exact ⟨defaultResultKVs, hsa.symm⟩)⟩

theorem getLast?_append_ne_nil (a b : List Char) (hb : b ≠ []) :
    (a ++ b).getLast? = b.getLast? := by
  rw [List.getLast?_append]
  cases b with
  | nil => exact absurd rfl hb
  | cons x xs =>
    rw [List.getLast?_eq_getLast (x :: xs) (by simp)]
    rfl

theorem fourHex_decomp (cs : List Char) (n : Nat) (r : List Char)
    (h : fourHex cs = some (n, r)) :
    ∃ a b c d, cs = a :: b :: c :: d :: r := by
  match cs with
  | [] => simp [fourHex] at h
  | [a] => simp [fourHex] at h
  | [a, b] => simp [fourHex] at h
  | [a, b, c] => simp [fourHex] at h
  | a :: b :: c :: d :: rest =>
    refine ⟨a, b, c, d, ?_⟩
    rw [fourHex] at h
    split at h
    · injection h with h
      injection h with h1 h2
      rw [h2]
    · cases h

theorem parseStr_cons_chunk (chunk tail rest pre2 : List Char)
    (htail : tail = pre2 ++ rest) (hp2 : pre2 ≠ [])
    (hlast : pre2.getLast? = some '"') :
    ∃ pre, chunk ++ tail = pre ++ rest ∧ pre ≠ [] ∧ pre.getLast? = some '"' := by
  refine ⟨chunk ++ pre2, ?_, by simp [hp2], ?_⟩
  · rw [htail, List.append_assoc]
  · rw [getLast?_append_ne_nil chunk pre2 hp2]
    exact hlast

theorem parseStr_struct : ∀ (f : Nat) (s out rest : List Char),
    parseStr f s = some (out, rest) →
    ∃ pre, s = pre ++ rest ∧ pre ≠ [] ∧ pre.getLast? = some '"' := by
  intro f
  induction f with
  | zero => intro s out rest h; simp [parseStr] at h
  | succ f ih =>
    intro s out rest h
    simp only [parseStr] at h
    split at h
    · simp at h
    · rename_i s0 cs
      injection h with h2
      injection h2 with hout hrest
      exact ⟨['"'], by rw [hrest]; rfl, by simp, rfl⟩
    · rename_i s0 cs
      split at h
      · simp at h
      · rename_i pr n cs2 hfour
        obtain ⟨a, b, c, d, hcs⟩ := fourHex_decomp cs n cs2 hfour
        split at h
        · split at h
          · rename_i cs3
            split at h
            · rename_i m cs4 hfour2
              obtain ⟨a2, b2, c2, d2, hcs3⟩ := fourHex_decomp cs3 m cs4 hfour2
              split at h
              · split at h
                · rename_i out1 r1 hrec
                  injection h with h2
                  injection h2 with hout hrest
                  obtain ⟨pre2, ht, hp2, hl⟩ := ih cs4 out1 r1 hrec
                  rw [hcs, hcs3]
                  have := parseStr_cons_chunk
                    ['\\', 'u', a, b, c, d, '\\', 'u', a2, b2, c2, d2] cs4 rest pre2
                    (by rw [ht, hrest]) hp2 hl
                  simpa using this
                · simp at h
              · split at h
                · rename_i out1 r1 hrec
                  injection h with h2
                  injection h2 with hout hrest
                  obtain ⟨pre2, ht, hp2, hl⟩ := ih _ out1 r1 hrec
                  have := parseStr_cons_chunk ['\\', 'u', a, b, c, d]
                    ('\\' :: 'u' :: cs3) rest pre2
                    (by rw [ht, hrest]) hp2 hl
                  rw [hcs]
                  simpa using this
                · simp at h
            · split at h
              · rename_i out1 r1 hrec
                injection h with h2
                injection h2 with hout hrest
                obtain ⟨pre2, ht, hp2, hl⟩ := ih _ out1 r1 hrec
                have := parseStr_cons_chunk ['\\', 'u', a, b, c, d]
                  ('\\' :: 'u' :: cs3) rest pre2
                  (by rw [ht, hrest]) hp2 hl
                rw [hcs]
                simpa using this
              · simp at h
          · rename_i x hx
            split at h
            · rename_i out1 r1 hrec
              injection h with h2
              injection h2 with hout hrest
              obtain ⟨pre2, ht, hp2, hl⟩ := ih _ out1 r1 hrec
              have := parseStr_cons_chunk ['\\', 'u', a, b, c, d] cs2 rest pre2
                (by rw [ht, hrest]) hp2 hl
              rw [hcs]
              simpa using this
            · simp at h
        · split at h
          · rename_i out1 r1 hrec
            injection h with h2
            injection h2 with hout hrest
            obtain ⟨pre2, ht, hp2, hl⟩ := ih _ out1 r1 hrec
            have := parseStr_cons_chunk ['\\', 'u', a, b, c, d] cs2 rest pre2
              (by rw [ht, hrest]) hp2 hl
            rw [hcs]
            simpa using this
          · simp at h
    · rename_i s0 e1 cs1 hcon
      split at h
      · rename_i d hesc
        split at h
        · rename_i out1 r1 hrec
          injection h with h2
          injection h2 with hout hrest
          obtain ⟨pre2, ht, hp2, hl⟩ := ih _ out1 r1 hrec
          have := parseStr_cons_chunk ['\\', e1] cs1 rest pre2
            (by rw [ht, hrest]) hp2 hl
          simpa using this
        · simp at h
      · simp at h
    · rename_i c cs hne1 hne2 hne3
      split at h
      · simp at h
      · split at h
        · rename_i out1 r1 hrec
          injection h with h2
          injection h2 with hout hrest
          obtain ⟨pre2, ht, hp2, hl⟩ := ih _ out1 r1 hrec
          have := parseStr_cons_chunk [c] cs rest pre2
            (by rw [ht, hrest]) hp2 hl
          simpa using this
        · simp at h

theorem getLast?_some_ne_nil (l : List Char) (c : Char)
    (h : l.getLast? = some c) : l ≠ [] := by
  intro he
  rw [he] at h
  simp at h

theorem digitCh_of_digit19 (c : Char) (h : isDigit19 c = true) :
    isDigitCh c = true := by
  simp [isDigit19] at h
  simp [isDigitCh]
  exact ⟨le_trans (by decide) h.1, h.2⟩

theorem digits_getLast (l : List Char) (hl : l ≠ [])
    (hd : ∀ c ∈ l, isDigitCh c = true) :
    ∃ c, l.getLast? = some c ∧ isDigitCh c = true :=
  ⟨l.getLast hl, List.getLast?_eq_getLast l hl, hd _ (List.getLast_mem hl)⟩

theorem spanDigits_decomp (l ds r : List Char) (h : spanDigits l = (ds, r)) :
    l = ds ++ r ∧ ∀ c ∈ ds, isDigitCh c = true := by
  unfold spanDigits at h
  injection h with h1 h2
  subst h1
  subst h2
  exact ⟨(List.takeWhile_append_dropWhile _ _).symm,
    fun c hc => List.mem_takeWhile_imp hc⟩

theorem numIntPart_struct (s ip r : List Char) (h : numIntPart s = some (ip, r)) :
    s = ip ++ r ∧ ∃ c, ip.getLast? = some c ∧ isDigitCh c = true := by
  rw [numIntPart.eq_def] at h
  split at h
  · rename_i r0
    injection h with h2
    injection h2 with h1 h2
    subst h1
    subst h2
    exact ⟨rfl, '0', rfl, by decide⟩
  · rename_i c0 r0 hne
    split at h
    · rename_i hd19
      cases hsp : spanDigits r0 with
      | mk ds r2 =>
        rw [hsp] at h
        simp at h
        obtain ⟨h1, h3⟩ := h
        obtain ⟨hdec, hds⟩ := spanDigits_decomp r0 ds r2 hsp
        subst h1
        subst h3
        constructor
        · rw [hdec]; rfl
        · cases hds0 : ds with
          | nil => exact ⟨c0, by simp [hds0], digitCh_of_digit19 c0 hd19⟩
          | cons d0 ds0 =>
            obtain ⟨c1, hc1, hc2⟩ := digits_getLast ds (by simp [hds0])
              (fun c hc => hds c hc)
            refine ⟨c1, ?_, hc2⟩
            rw [show (c0 :: d0 :: ds0 : List Char) = [c0] ++ (d0 :: ds0) from rfl,
              getLast?_append_ne_nil [c0] (d0 :: ds0) (by simp), ← hds0]
            exact hc1
    · cases h
  · cases h

theorem numFrac_struct (r0 fr r2 : List Char) (h : numFrac r0 = (fr, r2)) :
    r0 = fr ++ r2 ∧
      (fr = [] ∨ ∃ c, fr.getLast? = some c ∧ isDigitCh c = true) := by
  rw [numFrac.eq_def] at h
  split at h
  · rename_i r1
    cases hsp : spanDigits r1 with
    | mk ds rr =>
      rw [hsp] at h
      dsimp only at h
      obtain ⟨hdec, hds⟩ := spanDigits_decomp r1 ds rr hsp
      split at h
      · injection h with h1 h2
        subst h1
        subst h2
        exact ⟨rfl, Or.inl rfl⟩
      · rename_i hne
        injection h with h1 h2
        subst h1
        subst h2
        refine ⟨by rw [hdec]; rfl, Or.inr ?_⟩
        obtain ⟨c1, hc1, hc2⟩ := digits_getLast ds hne hds
        refine ⟨c1, ?_, hc2⟩
        rw [show ('.' :: ds : List Char) = ['.'] ++ ds from rfl,
          getLast?_append_ne_nil ['.'] ds hne]
        exact hc1
  · injection h with h1 h2
    subst h1
    subst h2
    exact ⟨rfl, Or.inl rfl⟩

theorem numExp_core (e0 : Char) (sgn q : List Char) (ds rr : List Char)
    (hsp : spanDigits q = (ds, rr)) (hne : ds ≠ []) :
    ∃ c, (e0 :: sgn ++ ds).getLast? = some c ∧ isDigitCh c = true := by
  obtain ⟨hdec, hds⟩ := spanDigits_decomp q ds rr hsp
  obtain ⟨c1, hc1, hc2⟩ := digits_getLast ds hne hds
  refine ⟨c1, ?_, hc2⟩
  rw [show (e0 :: sgn ++ ds : List Char) = (e0 :: sgn) ++ ds from by simp,
    getLast?_append_ne_nil (e0 :: sgn) ds hne]
  exact hc1

theorem numExp_struct (r0 ex r2 : List Char) (h : numExp r0 = (ex, r2)) :
    r0 = ex ++ r2 ∧
      (ex = [] ∨ ∃ c, ex.getLast? = some c ∧ isDigitCh c = true) := by
  rw [numExp.eq_def] at h
  split at h
  · rename_i e0 r1
    split at h
    · rename_i hee
      split at h
      · rename_i q
        cases hsp : spanDigits q with
        | mk ds rr =>
          rw [hsp] at h
          dsimp only at h
          obtain ⟨hdec, hds⟩ := spanDigits_decomp q ds rr hsp
          split at h
          · injection h with h1 h2
            subst h1
            subst h2
            exact ⟨rfl, Or.inl rfl⟩
          · rename_i hne
            injection h with h1 h2
            subst h1
            subst h2
            refine ⟨by simp [hdec], Or.inr ?_⟩
            exact numExp_core e0 ['+'] q ds rr hsp hne
      · rename_i q
        cases hsp : spanDigits q with
        | mk ds rr =>
          rw [hsp] at h
          dsimp only at h
          obtain ⟨hdec, hds⟩ := spanDigits_decomp q ds rr hsp
          split at h
          · injection h with h1 h2
            subst h1
            subst h2
            exact ⟨rfl, Or.inl rfl⟩
          · rename_i hne
            injection h with h1 h2
            subst h1
            subst h2
            refine ⟨by simp [hdec], Or.inr ?_⟩
            exact numExp_core e0 ['-'] q ds rr hsp hne
      · rename_i q hq1 hq2
        cases hsp : spanDigits r1 with
        | mk ds rr =>
          rw [hsp] at h
          dsimp only at h
          obtain ⟨hdec, hds⟩ := spanDigits_decomp r1 ds rr hsp
          split at h
          · injection h with h1 h2
            subst h1
            subst h2
            exact ⟨rfl, Or.inl rfl⟩
          · rename_i hne
            injection h with h1 h2
            subst h1
            subst h2
            refine ⟨by simp [hdec], Or.inr ?_⟩
            exact numExp_core e0 [] r1 ds rr hsp hne
    · injection h with h1 h2
      subst h1
      subst h2
      exact ⟨rfl, Or.inl rfl⟩
  · injection h with h1 h2
    subst h1
    subst h2
    exact ⟨rfl, Or.inl rfl⟩

theorem lex_getLast (ip fr ex : List Char)
    (h1 : ∃ c, ip.getLast? = some c ∧ isDigitCh c = true)
    (h2 : fr = [] ∨ ∃ c, fr.getLast? = some c ∧ isDigitCh c = true)
    (h3 : ex = [] ∨ ∃ c, ex.getLast? = some c ∧ isDigitCh c = true) :
    ∃ c, (ip ++ fr ++ ex).getLast? = some c ∧ isDigitCh c = true := by
  rcases h3 with h3 | ⟨c3, hc3, hd3⟩
  · subst h3
    rw [List.append_nil]
    rcases h2 with h2 | ⟨c2, hc2, hd2⟩
    · subst h2
      rw [List.append_nil]
      exact h1
    · refine ⟨c2, ?_, hd2⟩
      rw [getLast?_append_ne_nil ip fr (getLast?_some_ne_nil fr c2 hc2)]
      exact hc2
  · refine ⟨c3, ?_, hd3⟩
    rw [getLast?_append_ne_nil (ip ++ fr) ex (getLast?_some_ne_nil ex c3 hc3)]
    exact hc3

theorem parseNum_struct (s lex rest : List Char)
    (h : parseNum s = some (lex, rest)) :
    s = lex ++ rest ∧ lex ≠ [] ∧
      ∃ c, lex.getLast? = some c ∧ isDigitCh c = true := by
  rw [parseNum.eq_def] at h
  split at h
  · rename_i r
    split at h
    · rename_i pr ip r2 hip
      cases hfr : numFrac r2 with
      | mk fr r3 =>
        rw [hfr] at h
        dsimp only at h
        cases hex : numExp r3 with
        | mk ex r4 =>
          rw [hex] at h
          dsimp only at h
          injection h with h2
          injection h2 with h1 h2
          subst h1
          subst h2
          obtain ⟨hdec1, c1, hlast1, hdig1⟩ := numIntPart_struct r ip r2 hip
          obtain ⟨hdec2, hfr2⟩ := numFrac_struct r2 fr r3 hfr
          obtain ⟨hdec3, hex2⟩ := numExp_struct r3 ex r4 hex
          have hipne : ip ≠ [] := getLast?_some_ne_nil ip c1 hlast1
          obtain ⟨cl, hcl, hcd⟩ := lex_getLast ip fr ex ⟨c1, hlast1, hdig1⟩ hfr2 hex2
          refine ⟨?_, by simp, cl, ?_, hcd⟩
          · rw [hdec1, hdec2, hdec3]
            simp
          · rw [show ('-' :: (ip ++ fr ++ ex) : List Char) =
              ['-'] ++ (ip ++ fr ++ ex) from rfl,
              getLast?_append_ne_nil ['-'] (ip ++ fr ++ ex) (by simp [hipne])]
            exact hcl
    · cases h
  · split at h
    · rename_i pr ip r2 hip
      cases hfr : numFrac r2 with
      | mk fr r3 =>
        rw [hfr] at h
        dsimp only at h
        cases hex : numExp r3 with
        | mk ex r4 =>
          rw [hex] at h
          dsimp only at h
          injection h with h2
          injection h2 with h1 h2
          subst h1
          subst h2
          obtain ⟨hdec1, c1, hlast1, hdig1⟩ := numIntPart_struct _ ip r2 hip
          obtain ⟨hdec2, hfr2⟩ := numFrac_struct r2 fr r3 hfr
          obtain ⟨hdec3, hex2⟩ := numExp_struct r3 ex r4 hex
          have hipne : ip ≠ [] := getLast?_some_ne_nil ip c1 hlast1
          obtain ⟨cl, hcl, hcd⟩ := lex_getLast ip fr ex ⟨c1, hlast1, hdig1⟩ hfr2 hex2
          refine ⟨?_, by simp [hipne], cl, hcl, hcd⟩
          rw [hdec1, hdec2, hdec3]
          simp
    · cases h


theorem struct_chunk_good (chunk tail rest pre2 : List Char) (c : Char)
    (htail : tail = pre2 ++ rest) (hl : pre2.getLast? = some c)
    (h1 : isPyWs c = false) (h2 : c ≠ btChar) :
    ∃ pre c2, chunk ++ tail = pre ++ rest ∧ pre.getLast? = some c2 ∧
      isPyWs c2 = false ∧ c2 ≠ btChar := by
  refine ⟨chunk ++ pre2, c, ?_, ?_, h1, h2⟩
  · rw [htail, List.append_assoc]
  · rw [getLast?_append_ne_nil chunk pre2 (getLast?_some_ne_nil pre2 c hl)]
    exact hl

theorem goodEnd_digit (c : Char) (hd : isDigitCh c = true) :
    isPyWs c = false ∧ c ≠ btChar := by
  simp [isDigitCh] at hd
  constructor
  · cases hws : isPyWs c with
    | false => rfl
    | true =>
      exfalso
      simp [isPyWs, isJsonWs] at hws
      rcases hws with ((((h | h) | h) | h) | h) | h <;> subst h <;>
        exact absurd hd (by decide)
  · intro he
    subst he
    exact absurd hd (by decide)

theorem skipWs_decomp (l : List Char) :
    l = l.takeWhile isJsonWs ++ skipWs l := by
  unfold skipWs
  exact (List.takeWhile_append_dropWhile _ _).symm

theorem lsw_decomp : ∀ (p s : List Char), listStartsWith p s = true →
    s = p ++ s.drop p.length
  | [], s, _ => by simp
  | p :: ps, [], h => by simp [listStartsWith] at h
  | p :: ps, c :: cs, h => by
    simp only [listStartsWith, Bool.and_eq_true, decide_eq_true_eq] at h
    obtain ⟨h1, h2⟩ := h
    subst h1
    have ih := lsw_decomp ps cs h2
    simp only [List.length_cons, List.drop_succ_cons, List.cons_append]
    exact congrArg (List.cons p) ih

mutual

theorem parseVal_struct : ∀ (f : Nat) (s : List Char) (v : Json)
    (rest : List Char), parseVal f s = some (v, rest) →
    ∃ pre c, s = pre ++ rest ∧ pre.getLast? = some c ∧
      isPyWs c = false ∧ c ≠ btChar
  | 0, _, _, _, h => by simp [parseVal] at h
  | Nat.succ f, s, v, rest, h => by
    simp only [parseVal] at h
    split at h
    · rename_i h1
      have hs : s = '\x7b' :: s.drop 1 := by
        simpa using lsw_decomp ['\x7b'] s h1
      split at h
      · rename_i r hsw
        injection h with h2
        injection h2 with h1a h2
        subst rest
        obtain ⟨tw, hdec⟩ : ∃ tw, List.drop 1 s = tw ++ ('\x7d' :: r) := by
          have hd := skipWs_decomp (s.drop 1)
          rw [hsw] at hd
          exact ⟨_, hd⟩
        refine ⟨'\x7b' :: tw ++ ['\x7d'], '\x7d', ?_, List.getLast?_concat _,
          by decide, by decide⟩
        rw [hs, hdec]
        simp
      · rename_i s1 hnsw
        obtain ⟨pre2, c2, ht, hl, hg1, hg2⟩ :=
          parseMembers_struct f (skipWs (s.drop 1)) [] v rest h
        obtain ⟨tw, hdec⟩ : ∃ tw, List.drop 1 s = tw ++ skipWs (s.drop 1) :=
          ⟨_, skipWs_decomp (s.drop 1)⟩
        have hcg := struct_chunk_good ('\x7b' :: tw) (skipWs (s.drop 1)) rest
          pre2 c2 ht hl hg1 hg2
        rw [hs, hdec]
        simpa using hcg
    · split at h
      · rename_i h1
        have hs : s = '[' :: s.drop 1 := by
          simpa using lsw_decomp ['['] s h1
        split at h
        · rename_i r hsw
          injection h with h2
          injection h2 with h1a h2
          subst rest
          obtain ⟨tw, hdec⟩ : ∃ tw, List.drop 1 s = tw ++ (']' :: r) := by
            have hd := skipWs_decomp (s.drop 1)
            rw [hsw] at hd
            exact ⟨_, hd⟩
          refine ⟨'[' :: tw ++ [']'], ']', ?_, List.getLast?_concat _,
            by decide, by decide⟩
          rw [hs, hdec]
          simp
        · rename_i s1 hnsw
          obtain ⟨pre2, c2, ht, hl, hg1, hg2⟩ :=
            parseElems_struct f (skipWs (s.drop 1)) [] v rest h
          obtain ⟨tw, hdec⟩ : ∃ tw, List.drop 1 s = tw ++ skipWs (s.drop 1) :=
            ⟨_, skipWs_decomp (s.drop 1)⟩
          have hcg := struct_chunk_good ('[' :: tw) (skipWs (s.drop 1)) rest
            pre2 c2 ht hl hg1 hg2
          rw [hs, hdec]
          simpa using hcg
      · split at h
        · rename_i h1
          have hs : s = '"' :: s.drop 1 := by
            simpa using lsw_decomp ['"'] s h1
          split at h
          · rename_i out r hstr
            injection h with h2
            injection h2 with h1a h2
            subst rest
            obtain ⟨pre2, ht, hp2, hl⟩ :=
              parseStr_struct f (s.drop 1) out r hstr
            have hcg := struct_chunk_good ['"'] (s.drop 1) r pre2 '"' ht hl
              (by decide) (by decide)
            rw [hs]
            simpa using hcg
          · cases h
        · split at h
          · rename_i h1
            injection h with h2
            injection h2 with h1a h2
            subst rest
            have hs := lsw_decomp "true".toList s h1
            exact ⟨"true".toList, 'e', hs, by decide, by decide, by decide⟩
          · split at h
            · rename_i h1
              injection h with h2
              injection h2 with h1a h2
              subst rest
              have hs := lsw_decomp "false".toList s h1
              exact ⟨"false".toList, 'e', hs, by decide, by decide,
                by decide⟩
            · split at h
              · rename_i h1
                injection h with h2
                injection h2 with h1a h2
                subst rest
                have hs := lsw_decomp "null".toList s h1
                exact ⟨"null".toList, 'l', hs, by decide, by decide,
                  by decide⟩
              · split at h
                · rename_i h1
                  injection h with h2
                  injection h2 with h1a h2
                  subst rest
                  have hs := lsw_decomp "NaN".toList s h1
                  exact ⟨"NaN".toList, 'N', hs, by decide, by decide,
                    by decide⟩
                · split at h
                  · rename_i h1
                    injection h with h2
                    injection h2 with h1a h2
                    subst rest
                    have hs := lsw_decomp "Infinity".toList s h1
                    exact ⟨"Infinity".toList, 'y', hs, by decide, by decide,
                      by decide⟩
                  · split at h
                    · rename_i h1
                      injection h with h2
                      injection h2 with h1a h2
                      subst rest
                      have hs := lsw_decomp "-Infinity".toList s h1
                      exact ⟨"-Infinity".toList, 'y', hs, by decide,
                        by decide, by decide⟩
                    · split at h
                      · rename_i lex r hnum
                        injection h with h2
                        injection h2 with h1a h2
                        subst rest
                        obtain ⟨hdec, hne, c1, hlast, hdig⟩ :=
                          parseNum_struct _ lex r hnum
                        obtain ⟨hg1, hg2⟩ := goodEnd_digit c1 hdig
                        exact ⟨lex, c1, hdec, hlast, hg1, hg2⟩
                      · cases h

theorem parseMembers_struct : ∀ (f : Nat) (s : List Char)
    (acc : List (List Char × Json)) (v : Json) (rest : List Char),
    parseMembers f s acc = some (v, rest) →
    ∃ pre c, s = pre ++ rest ∧ pre.getLast? = some c ∧
      isPyWs c = false ∧ c ≠ btChar
  | 0, _, _, _, _, h => by simp [parseMembers] at h
  | Nat.succ f, s, acc, v, rest, h => by
    simp only [parseMembers] at h
    split at h
    · rename_i cs
      split at h
      · simp at h
      · rename_i key r1 hstr
        split at h
        · rename_i r2 hsw1
          split at h
          · simp at h
          · rename_i v1 r3 hval
            split at h
            · rename_i r4 hsw3
              injection h with h2
              injection h2 with h1a h2
              subst rest
              obtain ⟨preK, htK, hpK, hlK⟩ := parseStr_struct f cs key r1 hstr
              obtain ⟨preV, cV, htV, hlV, hgV1, hgV2⟩ :=
                parseVal_struct f (skipWs r2) v1 r3 hval
              obtain ⟨tw1, hd1⟩ : ∃ tw, r1 = tw ++ (':' :: r2) := by
                have hd := skipWs_decomp r1
                rw [hsw1] at hd
                exact ⟨_, hd⟩
              obtain ⟨tw2, hd2⟩ : ∃ tw, r2 = tw ++ (preV ++ r3) := by
                have hd := skipWs_decomp r2
                rw [htV] at hd
                exact ⟨_, hd⟩
              obtain ⟨tw3, hd3⟩ : ∃ tw, r3 = tw ++ ('\x7d' :: r4) := by
                have hd := skipWs_decomp r3
                rw [hsw3] at hd
                exact ⟨_, hd⟩
              refine ⟨('"' :: preK ++ tw1 ++ [':'] ++ tw2 ++ preV ++ tw3) ++
                ['\x7d'], '\x7d', ?_, List.getLast?_concat _, by decide,
                by decide⟩
              rw [htK, hd1, hd2, hd3]
              simp
            · rename_i r4 hsw3
              obtain ⟨preM, cM, htM, hlM, hgM1, hgM2⟩ :=
                parseMembers_struct f (skipWs r4) (insertKV acc key v1) v
                  rest h
              obtain ⟨preK, htK, hpK, hlK⟩ := parseStr_struct f cs key r1 hstr
              obtain ⟨preV, cV, htV, hlV, hgV1, hgV2⟩ :=
                parseVal_struct f (skipWs r2) v1 r3 hval
              obtain ⟨tw1, hd1⟩ : ∃ tw, r1 = tw ++ (':' :: r2) := by
                have hd := skipWs_decomp r1
                rw [hsw1] at hd
                exact ⟨_, hd⟩
              obtain ⟨tw2, hd2⟩ : ∃ tw, r2 = tw ++ (preV ++ r3) := by
                have hd := skipWs_decomp r2
                rw [htV] at hd
                exact ⟨_, hd⟩
              obtain ⟨tw3, hd3⟩ : ∃ tw, r3 = tw ++ (',' :: r4) := by
                have hd := skipWs_decomp r3
                rw [hsw3] at hd
                exact ⟨_, hd⟩
              obtain ⟨tw4, hd4⟩ : ∃ tw, r4 = tw ++ (preM ++ rest) := by
                have hd := skipWs_decomp r4
                rw [htM] at hd
                exact ⟨_, hd⟩
              refine ⟨('"' :: preK ++ tw1 ++ [':'] ++ tw2 ++ preV ++ tw3 ++
                [','] ++ tw4) ++ preM, cM, ?_, ?_, hgM1, hgM2⟩
              · rw [htK, hd1, hd2, hd3, hd4]
                simp
              · rw [getLast?_append_ne_nil _ preM
                  (getLast?_some_ne_nil preM cM hlM)]
                exact hlM
            · simp at h
        · simp at h
    · simp at h

theorem parseElems_struct : ∀ (f : Nat) (s : List Char) (acc : List Json)
    (v : Json) (rest : List Char),
    parseElems f s acc = some (v, rest) →
    ∃ pre c, s = pre ++ rest ∧ pre.getLast? = some c ∧
      isPyWs c = false ∧ c ≠ btChar
  | 0, _, _, _, _, h => by simp [parseElems] at h
  | Nat.succ f, s, acc, v, rest, h => by
    simp only [parseElems] at h
    split at h
    · simp at h
    · rename_i v1 r1 hval
      split at h
      · rename_i r2 hsw1
        injection h with h2
        injection h2 with h1a h2
        subst rest
        obtain ⟨preV, cV, htV, hlV, hgV1, hgV2⟩ :=
          parseVal_struct f s v1 r1 hval
        obtain ⟨tw1, hd1⟩ : ∃ tw, r1 = tw ++ (']' :: r2) := by
          have hd := skipWs_decomp r1
          rw [hsw1] at hd
          exact ⟨_, hd⟩
        refine ⟨(preV ++ tw1) ++ [']'], ']', ?_, List.getLast?_concat _,
          by decide, by decide⟩
        rw [htV, hd1]
        simp
      · rename_i r2 hsw1
        obtain ⟨preE, cE, htE, hlE, hgE1, hgE2⟩ :=
          parseElems_struct f (skipWs r2) (acc ++ [v1]) v rest h
        obtain ⟨preV, cV, htV, hlV, hgV1, hgV2⟩ :=
          parseVal_struct f s v1 r1 hval
        obtain ⟨tw1, hd1⟩ : ∃ tw, r1 = tw ++ (',' :: r2) := by
          have hd := skipWs_decomp r1
          rw [hsw1] at hd
          exact ⟨_, hd⟩
        obtain ⟨tw2, hd2⟩ : ∃ tw, r2 = tw ++ (preE ++ rest) := by
          have hd := skipWs_decomp r2
          rw [htE] at hd
          exact ⟨_, hd⟩
        refine ⟨(preV ++ tw1 ++ [','] ++ tw2) ++ preE, cE, ?_, ?_, hgE1,
          hgE2⟩
        · rw [htV, hd1, hd2]
          simp
        · rw [getLast?_append_ne_nil _ preE
            (getLast?_some_ne_nil preE cE hlE)]
          exact hlE
      · simp at h

end

theorem jsonWs_imp_pyWs (c : Char) (h : isJsonWs c = true) :
    isPyWs c = true := by
  simp [isPyWs, h]

theorem pyWs_false_imp_jsonWs_false (c : Char) (h : isPyWs c = false) :
    isJsonWs c = false := by
  cases hj : isJsonWs c with
  | false => rfl
  | true => rw [jsonWs_imp_pyWs c hj] at h; cases h

theorem numIntPart_first (s ip r : List Char)
    (h : numIntPart s = some (ip, r)) :
    ∃ c cs, s = c :: cs ∧ isDigitCh c = true := by
  rw [numIntPart.eq_def] at h
  split at h
  · rename_i r0
    exact ⟨'0', r0, rfl, by decide⟩
  · rename_i c r0 hne0
    split at h
    · rename_i hd19
      exact ⟨c, r0, rfl, digitCh_of_digit19 c hd19⟩
    · cases h
  · cases h

theorem parseNum_first (s lex r : List Char)
    (h : parseNum s = some (lex, r)) :
    ∃ c cs, s = c :: cs ∧ isPyWs c = false ∧ c ≠ btChar := by
  rw [parseNum.eq_def] at h
  split at h
  · rename_i r0
    exact ⟨'-', r0, rfl, by decide, by decide⟩
  · split at h
    · rename_i ip r2 hip
      obtain ⟨c, cs, hcons, hdig⟩ := numIntPart_first s ip r2 hip
      obtain ⟨hg1, hg2⟩ := goodEnd_digit c hdig
      exact ⟨c, cs, hcons, hg1, hg2⟩
    · cases h

theorem parseVal_first (f : Nat) (s : List Char) (v : Json)
    (rest : List Char) (h : parseVal f s = some (v, rest)) :
    ∃ c cs, s = c :: cs ∧ isPyWs c = false ∧ c ≠ btChar := by
  cases f with
  | zero => simp [parseVal] at h
  | succ f =>
    simp only [parseVal] at h
    split at h
    · rename_i h1
      exact ⟨'\x7b', s.drop 1, by simpa using lsw_decomp ['\x7b'] s h1,
        by decide, by decide⟩
    · split at h
      · rename_i h1
        exact ⟨'[', s.drop 1, by simpa using lsw_decomp ['['] s h1,
          by decide, by decide⟩
      · split at h
        · rename_i h1
          exact ⟨'"', s.drop 1, by simpa using lsw_decomp ['"'] s h1,
            by decide, by decide⟩
        · split at h
          · rename_i h1
            exact ⟨'t', "rue".toList ++ s.drop "true".toList.length,
              lsw_decomp "true".toList s h1, by decide, by decide⟩
          · split at h
            · rename_i h1
              exact ⟨'f', "alse".toList ++ s.drop "false".toList.length,
                lsw_decomp "false".toList s h1, by decide, by decide⟩
            · split at h
              · rename_i h1
                exact ⟨'n', "ull".toList ++ s.drop "null".toList.length,
                  lsw_decomp "null".toList s h1, by decide, by decide⟩
              · split at h
                · rename_i h1
                  exact ⟨'N', "aN".toList ++ s.drop "NaN".toList.length,
                    lsw_decomp "NaN".toList s h1, by decide, by decide⟩
                · split at h
                  · rename_i h1
                    exact ⟨'I',
                      "nfinity".toList ++ s.drop "Infinity".toList.length,
                      lsw_decomp "Infinity".toList s h1, by decide,
                      by decide⟩
                  · split at h
                    · rename_i h1
                      exact ⟨'-',
                        "Infinity".toList ++
                          s.drop "-Infinity".toList.length,
                        lsw_decomp "-Infinity".toList s h1, by decide,
                        by decide⟩
                    · split at h
                      · rename_i lex r hnum
                        exact parseNum_first s lex r hnum
                      · cases h

theorem json_loads_elim (s : List Char) (v : Json)
    (h : json_loads s = some v) :
    parseVal ((trimJson s).length + 1) (trimJson s) = some (v, []) := by
  simp only [json_loads] at h
  split at h
  · rename_i v1 heq
    injection h with h2
    subst h2
    exact heq
  · cases h

theorem loads_clean (s : List Char) (v : Json) (h : json_loads s = some v) :
    cleanFences s = trimJson s ∧ json_loads (cleanFences s) = some v := by
  have hp := json_loads_elim s v h
  obtain ⟨c0, cs0, hcons, hws0, hbt0⟩ := parseVal_first _ _ _ _ hp
  obtain ⟨pre, cl, hdecomp, hlast, hwsl, hbtl⟩ := parseVal_struct _ _ _ _ hp
  rw [List.append_nil] at hdecomp
  rw [← hdecomp] at hlast
  have hhead : ∀ c, (trimJson s).head? = some c → isPyWs c = false := by
    intro c hc
    rw [hcons] at hc
    simp at hc
    rw [← hc]
    exact hws0
  have hlastP : ∀ c, (trimJson s).getLast? = some c → isPyWs c = false := by
    intro c hc
    rw [hlast] at hc
    injection hc with hc
    rw [← hc]
    exact hwsl
  have hstripT : stripBoth isPyWs (trimJson s) = trimJson s :=
    stripBoth_eq_self _ _ hhead hlastP
  have hpyS : pyStrip s = trimJson s := by
    obtain ⟨a, b, hab, haw, hbw⟩ := stripBoth_decomp isJsonWs s
    rw [pyStrip_eq_stripBoth]
    rw [← trimJson_eq_stripBoth] at hab
    conv_lhs => rw [hab]
    exact stripBoth_pad isPyWs (trimJson s) a b
      (fun c hc => jsonWs_imp_pyWs c (haw c hc))
      (fun c hc => jsonWs_imp_pyWs c (hbw c hc)) hstripT
  have hnofj : listStartsWith fenceJson (trimJson s) = false := by
    rw [fenceJson_chars, hcons]
    exact lsw_head_ne _ _ _ _ (fun he => hbt0 he.symm)
  have hnof : listStartsWith fence (trimJson s) = false := by
    rw [fence_chars, hcons]
    exact lsw_head_ne _ _ _ _ (fun he => hbt0 he.symm)
  have hnoend : listEndsWith fence (trimJson s) = false := by
    unfold listEndsWith
    rw [fence_reverse, fence_chars]
    have hrev : (trimJson s).reverse.head? = some cl := by
      rw [List.head?_reverse]
      exact hlast
    cases hr : (trimJson s).reverse with
    | nil => rw [hr] at hrev; simp at hrev
    | cons y ys =>
      rw [hr] at hrev
      simp at hrev
      rw [← hrev] at hbtl
      exact lsw_head_ne _ _ _ _ (fun he => hbtl he.symm)
  have hclean : cleanFences s = trimJson s := by
    simp only [cleanFences, hpyS, hnofj, hnof, hnoend, Bool.false_eq_true,
      if_false]
    rw [← pyStrip_eq_stripBoth] at hstripT
    exact hstripT
  have htt : trimJson (trimJson s) = trimJson s := by
    rw [trimJson_eq_stripBoth (trimJson s)]
    exact stripBoth_eq_self _ _
      (fun c hc => pyWs_false_imp_jsonWs_false c (hhead c hc))
      (fun c hc => pyWs_false_imp_jsonWs_false c (hlastP c hc))
  have hloadsT : json_loads (trimJson s) = some v := by
    simp only [json_loads, htt, hp]
  refine ⟨hclean, ?_⟩
  rw [hclean]
  exact hloadsT

theorem fieldCheck_allKeys (kvs : List (List Char × Json))
    (h1 : hasKey kvs sentKey = true) (h2 : hasKey kvs scoreKey = true)
    (h3 : hasKey kvs kpKey = true) (h4 : hasKey kvs topicsKey = true)
    (h5 : hasKey kvs etKey = true) :
    fieldCheck (Json.obj kvs) = Except.ok (Json.obj kvs) := by
  simp [fieldCheck, requiredFields, fieldCheckGo, pyContains, h1, h2, h3,
    h4, h5]

theorem insertKV_not_hasKey (k : List Char) (v : Json) :
    ∀ (kvs : List (List Char × Json)), hasKey kvs k = false →
      insertKV kvs k v = kvs ++ [(k, v)]
  | [], _ => rfl
  | (k0, v0) :: rest, h => by
    simp only [hasKey, List.any_cons, Bool.or_eq_false_iff,
      decide_eq_false_iff_not] at h
    obtain ⟨hne, hrest⟩ := h
    simp only [insertKV, if_neg hne, List.cons_append]
    rw [insertKV_not_hasKey k v rest (by simpa [hasKey] using hrest)]

theorem hasKey_append (kvs1 kvs2 : List (List Char × Json)) (k : List Char) :
    hasKey (kvs1 ++ kvs2) k = (hasKey kvs1 k || hasKey kvs2 k) := by
  simp [hasKey]

/-- C5: a raw text that is a valid JSON object carrying all five required
keys (sentiment, score, key_phrases, topics, emotional_tone) is returned
by the response-interpreting portion of `analyze_comment` unchanged; no
validation of the score range or of the label enumeration is performed. -/
theorem C5_valid_object_passthrough (raw : List Char)
    (kvs : List (List Char × Json))
    (h : json_loads raw = some (Json.obj kvs))
    (h1 : hasKey kvs sentKey = true) (h2 : hasKey kvs scoreKey = true)
    (h3 : hasKey kvs kpKey = true) (h4 : hasKey kvs topicsKey = true)
    (h5 : hasKey kvs etKey = true) :
    analyze_comment_parse raw = Json.obj kvs := by
  obtain ⟨hc, hl⟩ := loads_clean raw _ h
  have hpr : parsedResult (cleanFences raw) = Json.obj kvs := by
    simp only [parsedResult, hl]
  have hfc := fieldCheck_allKeys kvs h1 h2 h3 h4 h5
  simp only [analyze_comment_parse, parseStage, hpr, hfc]

/-- Witness for C5: a concrete object with an out-of-range score and a
non-canonical label passes through unchanged. -/
theorem C5_witness :
    json_loads ("\x7b\"sentiment\": \"good\", \"score\": 2, \"key_phrases\": [], \"topics\": [], \"emotional_tone\": []\x7d".toList) =
      some (Json.obj [(sentKey, Json.str ("good".toList)),
        (scoreKey, Json.num ['2']), (kpKey, Json.arr []),
        (topicsKey, Json.arr []), (etKey, Json.arr [])]) ∧
    analyze_comment_parse ("\x7b\"sentiment\": \"good\", \"score\": 2, \"key_phrases\": [], \"topics\": [], \"emotional_tone\": []\x7d".toList) =
      Json.obj [(sentKey, Json.str ("good".toList)),
        (scoreKey, Json.num ['2']), (kpKey, Json.arr []),
        (topicsKey, Json.arr []), (etKey, Json.arr [])] :=
  ⟨rfl, C5_valid_object_passthrough _ _ rfl rfl rfl rfl rfl rfl⟩

/-- C6 (amended): when the raw text itself is a valid JSON object having
sentiment, score and key_phrases but missing topics and emotional_tone,
exactly those two fields are appended with empty lists and the other
three are preserved as parsed. -/
theorem C6_amended_fill_two (raw : List Char)
    (kvs : List (List Char × Json))
    (h : json_loads (cleanFences raw) = some (Json.obj kvs))
    (h1 : hasKey kvs sentKey = true) (h2 : hasKey kvs scoreKey = true)
    (h3 : hasKey kvs kpKey = true) (h4 : hasKey kvs topicsKey = false)
    (h5 : hasKey kvs etKey = false) :
    analyze_comment_parse raw =
      Json.obj (kvs ++ [(topicsKey, Json.arr []), (etKey, Json.arr [])]) := by
  have hpr : parsedResult (cleanFences raw) = Json.obj kvs := by
    simp only [parsedResult, h]
  have hgd4 : getDefaultValue topicsKey = Json.arr [] := rfl
  have hgd5 : getDefaultValue etKey = Json.arr [] := rfl
  have hi4 : insertKV kvs topicsKey (Json.arr []) =
      kvs ++ [(topicsKey, Json.arr [])] :=
    insertKV_not_hasKey topicsKey (Json.arr []) kvs h4
  have h5b : hasKey (kvs ++ [(topicsKey, Json.arr [])]) etKey = false := by
    rw [hasKey_append, h5]
    decide
  have hi5 : insertKV (kvs ++ [(topicsKey, Json.arr [])]) etKey
      (Json.arr []) = kvs ++ [(topicsKey, Json.arr []), (etKey, Json.arr [])] := by
    rw [insertKV_not_hasKey etKey (Json.arr []) _ h5b, List.append_assoc]
    rfl
  have hfc : fieldCheck (Json.obj kvs) = Except.ok
      (Json.obj (kvs ++ [(topicsKey, Json.arr []), (etKey, Json.arr [])])) := by
    simp only [fieldCheck, requiredFields, fieldCheckGo, pyContains, h1, h2,
      h3, h4, h5, pySetItem, hgd4, hgd5, hi4, h5b, hi5]
  simp only [analyze_comment_parse, parseStage, hpr, hfc]

/-- Witness for the amended C6: a fenced-wrapped three-key object whose
post-cleanup text is the valid JSON object, with the two missing fields
appended. -/
theorem C6_amended_witness :
    json_loads (cleanFences ("```json\n\x7b\"sentiment\": \"positive\", \"score\": 0.5, \"key_phrases\": []\x7d\n```".toList)) =
      some (Json.obj [(sentKey, Json.str ("positive".toList)),
        (scoreKey, Json.num ("0.5".toList)), (kpKey, Json.arr [])]) ∧
    analyze_comment_parse ("```json\n\x7b\"sentiment\": \"positive\", \"score\": 0.5, \"key_phrases\": []\x7d\n```".toList) =
      Json.obj ([(sentKey, Json.str ("positive".toList)),
        (scoreKey, Json.num ("0.5".toList)), (kpKey, Json.arr [])] ++
        [(topicsKey, Json.arr []), (etKey, Json.arr [])]) :=
  ⟨rfl, C6_amended_fill_two _ _ rfl rfl rfl rfl rfl rfl⟩

/-- C6 counterexample: a raw text merely CONTAINING a valid three-key
JSON object (here surrounded by a stray character and a stray closing
brace) yields the plain default record: the parsed sentiment "positive"
is not preserved, contradicting the claim as stated for texts
"containing" such an object. -/
theorem C6_counterexample :
    (∃ u w, ("x\x7b\"sentiment\": \"positive\", \"score\": 0.5, \"key_phrases\": []\x7d\x7d".toList : List Char) =
      u ++ "\x7b\"sentiment\": \"positive\", \"score\": 0.5, \"key_phrases\": []\x7d".toList ++ w) ∧
    json_loads ("\x7b\"sentiment\": \"positive\", \"score\": 0.5, \"key_phrases\": []\x7d".toList) =
      some (Json.obj [(sentKey, Json.str ("positive".toList)),
        (scoreKey, Json.num ("0.5".toList)), (kpKey, Json.arr [])]) ∧
    hasKey [(sentKey, Json.str ("positive".toList)),
        (scoreKey, Json.num ("0.5".toList)), (kpKey, Json.arr [])] topicsKey = false ∧
    hasKey [(sentKey, Json.str ("positive".toList)),
        (scoreKey, Json.num ("0.5".toList)), (kpKey, Json.arr [])] etKey = false ∧
    analyze_comment_parse ("x\x7b\"sentiment\": \"positive\", \"score\": 0.5, \"key_phrases\": []\x7d\x7d".toList) =
      Json.obj defaultResultKVs ∧
    lookupKV defaultResultKVs sentKey = some (Json.str unknownStr) ∧
    unknownStr ≠ "positive".toList :=
  ⟨⟨['x'], ['\x7d'], rfl⟩, rfl, rfl, rfl, rfl, rfl, by decide⟩

/-- C10 (amended): a raw text parsing as a non-container JSON value
(null, boolean or number) makes the required-field membership test raise
a TypeError, and the outer handler returns the error record with
sentiment "error" and a non-empty error message. -/
theorem C10_amended_noncontainer_error (raw : List Char) (v : Json)
    (h : json_loads raw = some v)
    (hnv : v = Json.null ∨ (∃ b, v = Json.bool b) ∨
      (∃ lex, v = Json.num lex)) :
    analyze_comment_parse raw =
      Json.obj (pyErrorKVs (notIterableMsg (typeNameOf v))) ∧
    notIterableMsg (typeNameOf v) ≠ [] := by
  obtain ⟨hc, hl⟩ := loads_clean raw v h
  have hpr : parsedResult (cleanFences raw) = v := by
    simp only [parsedResult, hl]
  constructor
  · have hfc : fieldCheck v = Except.error (notIterableMsg (typeNameOf v)) := by
      rcases hnv with h0 | ⟨b, h0⟩ | ⟨lex, h0⟩ <;> subst h0 <;>
        simp [fieldCheck, requiredFields, fieldCheckGo, pyContains]
    simp only [analyze_comment_parse, parseStage, hpr, hfc]
  · simp [notIterableMsg]

/-- Witness for the amended C10 on the JSON document true. -/
theorem C10_amended_witness :
    json_loads ("true".toList) = some (Json.bool true) ∧
    (analyze_comment_parse ("true".toList) =
      Json.obj (pyErrorKVs (notIterableMsg (typeNameOf (Json.bool true)))) ∧
    notIterableMsg (typeNameOf (Json.bool true)) ≠ []) :=
  ⟨rfl, C10_amended_noncontainer_error _ _ rfl (Or.inr (Or.inl ⟨true, rfl⟩))⟩
